import Mathlib

/-
  Verification development for the AFADProject seismic signal-processing code.

  Shallow embedding conventions:
  * JavaScript numbers are modelled as elements of ℝ; the pairs
    {real, imag} produced by the FFT routines are modelled as ℂ
    (field re = real, field im = imag).
  * JavaScript arrays are modelled as lists; reading `a[i]` inside a loop whose
    bound keeps `i` in range is modelled by `List.getD i 0`.
  * A thrown exception (and a crash caused by reading past the end of an array
    and then dereferencing the resulting undefined value) is modelled by
    `Option`/`Except`: `none`/`.error` means the call does not return a value.
  * `isFinite` guards are identically true in the real-number model, since ℝ
    has no NaN and no infinities; each such guard is noted where it occurs.

  Sources embedded here:
  * src/src/matlab_port/signal_processing/utils.js — its functions keep their
    plain source names (detrend, trapz, cumtrapz, fft, ifft, highPassFilter,
    newmarkBeta, complexAdd, ...).
  * src/src/matlab_port/signal_processing/filters.js — prefix Filters.
  * src/scripts/processWithMatlab.js, class SignalProcessor — prefix SP.
  * src/src/gui/earthquakeAnalysis.js, class EarthquakeAnalyzer — its detrend,
    fft, _fftRecursive, cumtrapz, calculateBracketedDuration,
    calculateAriasIntensity and calculateResponseSpectrum bodies are verbatim
    copies of the SignalProcessor ones, so the SP definitions embed both
    files; the one GUI routine that differs (findSiteFrequency uses the raw
    input length for its frequency grid) is embedded separately (prefix GUI).
  * src/unnamed/part_003 (analysis.js, EarthquakeAnalyzer) — prefix Analysis.
-/

noncomputable section

namespace AFAD

open Real

/-! ## Definitions (the shallow embedding of the source)

The even/odd split is defined first, followed by four small length facts
about it that the termination argument of `fftRecursive` needs; all other
theorems come after the definitions. -/

/-! ## Even / odd index subsequences

`evens x` collects the elements of `x` at even indices, `odds x` those at odd
indices — the split performed by every copy of `fftRecursive` in the source
(`x.filter((_, i) => i % 2 === 0)` and the index-1 counterpart). -/

def evens {α : Type} : List α → List α
  | [] => []
  | [a] => [a]
  | a :: _ :: rest => a :: evens rest

def odds {α : Type} : List α → List α
  | [] => []
  | [_] => []
  | _ :: b :: rest => b :: odds rest

theorem evens_length {α : Type} : (x : List α) → (evens x).length = (x.length + 1) / 2
  | [] => by simp [evens]
  | [_] => by simp [evens]
  | _ :: _ :: rest => by
      simp only [evens, List.length_cons, evens_length rest]
      omega

theorem odds_length {α : Type} : (x : List α) → (odds x).length = x.length / 2
  | [] => by simp [odds]
  | [_] => by simp [odds]
  | _ :: _ :: rest => by
      simp only [odds, List.length_cons, odds_length rest]
      omega

theorem evens_length_lt {α : Type} (x : List α) (h : 2 ≤ x.length) :
    (evens x).length < x.length := by
  rw [evens_length]; omega

theorem odds_length_lt {α : Type} (x : List α) (h : 2 ≤ x.length) :
    (odds x).length < x.length := by
  rw [odds_length]; omega

/-! ## Complex pair arithmetic (utils.js complexAdd / complexSubtract / complexMultiply)

The three JavaScript helpers act on {real, imag} pairs; they are exactly
complex addition, subtraction and multiplication in ℂ. -/

def complexAdd (a b : ℂ) : ℂ := ⟨a.re + b.re, a.im + b.im⟩

def complexSubtract (a b : ℂ) : ℂ := ⟨a.re - b.re, a.im - b.im⟩

def complexMultiply (a b : ℂ) : ℂ := ⟨a.re * b.re - a.im * b.im, a.re * b.im + a.im * b.re⟩

/-! ## Twiddle factors

Every copy of `fftRecursive` computes
`angle = -2 * Math.PI * k / N; twiddle = {real: cos(angle), imag: sin(angle)}`. -/

def twiddle (k n : ℕ) : ℂ :=
  ⟨Real.cos (-2 * π * k / n), Real.sin (-2 * π * k / n)⟩

/-! ## fftRecursive

The four copies of the recursive Cooley-Tukey kernel (utils.js fftRecursive,
filters.js fftRecursive, SignalProcessor._fftRecursive, and the GUI
_fftRecursive) are textually identical up to variable names, so one embedding
serves all of them.

The JavaScript loop `for (let k = 0; k < N / 2; k++)` uses real division, so
for even N it runs N/2 times and the writes to `combined[k]` and
`combined[k + N/2]` tile the output array exactly as the list append below.
For odd N ≥ 3 the loop runs (N+1)/2 times while `oddFFT` has only
(N-1)/2 elements, so the iteration at k = (N-1)/2 reads past the end of
`oddFFT` and the complex arithmetic on the resulting undefined value throws a
TypeError; the bounds guard below returns `none` (modelled crash) exactly in
that situation. -/

def fftRecursive (x : List ℂ) : Option (List ℂ) :=
  if h : 2 ≤ x.length then
    match fftRecursive (evens x), fftRecursive (odds x) with
    | some e, some o =>
      if (x.length + 1) / 2 ≤ e.length ∧ (x.length + 1) / 2 ≤ o.length then
        some ((List.range (x.length / 2)).map
            (fun k => e.getD k 0 + twiddle k x.length * o.getD k 0)
          ++ (List.range (x.length / 2)).map
            (fun k => e.getD k 0 - twiddle k x.length * o.getD k 0))
      else none
    | _, _ => none
  else some x
termination_by x.length
decreasing_by
  · exact evens_length_lt x h
  · exact odds_length_lt x h

/-- Smallest power of two used for padding: `Math.pow(2, Math.ceil(Math.log2(n)))`. -/
def nextPow2 (n : ℕ) : ℕ := 2 ^ Nat.clog 2 n

/-- utils.js `fft` on an already-complex signal: inputs of length ≤ 1 are
returned unchanged; otherwise the signal is zero-padded up to `nextPow2` and
handed to `fftRecursive`. -/
def fftC (x : List ℂ) : Option (List ℂ) :=
  if x.length ≤ 1 then some x
  else fftRecursive (x ++ List.replicate (nextPow2 x.length - x.length) 0)

/-- utils.js `fft` on a real-valued signal (the signal is first converted to
complex pairs). `SignalProcessor.fft` in processWithMatlab.js and the GUI
`fft` compute the same function: they pad the real array with the number 0 and
then convert, which yields the same complex list. -/
def fft (x : List ℝ) : Option (List ℂ) :=
  fftC (x.map Complex.ofReal)

/-- utils.js `ifft`: conjugate, forward `fft` (the padding entry point),
conjugate again and divide by the length of the transform result. -/
def ifft (X : List ℂ) : Option (List ℂ) := do
  let r ← fftC (X.map (fun c => ⟨c.re, -c.im⟩))
  some (r.map (fun c => ⟨c.re / r.length, -(c.im / r.length)⟩))

/-- filters.js `fft` (the entry point used by `preprocessBoore`): for length
≤ 1 it converts and returns; otherwise it hands the signal directly to
`fftRecursive` WITHOUT any padding. -/
def Filters.fft (x : List ℝ) : Option (List ℂ) :=
  if x.length ≤ 1 then some (x.map Complex.ofReal)
  else fftRecursive (x.map Complex.ofReal)

/-- processWithMatlab.js `SignalProcessor.ifft`: conjugate, `_fftRecursive`
directly (no padding), conjugate again and divide by the INPUT length. -/
def SP.ifft (X : List ℂ) : Option (List ℂ) := do
  let r ← fftRecursive (X.map (fun c => ⟨c.re, -c.im⟩))
  some (r.map (fun c => ⟨c.re / X.length, -(c.im / X.length)⟩))

/-! ## The discrete Fourier transform as a reference specification

`expw n t` is the root of unity e^{-2·pi·i·t/n}; `dftVal x k` is the k-th DFT
coefficient of the list `x`. We prove that on power-of-two lengths the
embedded `fftRecursive` computes exactly these sums, and from DFT inversion
obtain the round-trip property claimed by the spec. -/

def expw (n t : ℕ) : ℂ := Complex.exp (-(2 * (π : ℂ) * Complex.I * t / n))

def dftVal (x : List ℂ) (k : ℕ) : ℂ :=
  ∑ j ∈ Finset.range x.length, x.getD j 0 * expw x.length (j * k)

/-! ## Detrend (utils.js detrend; SignalProcessor.detrend, GUI detrend and
filters.js detrend compute the same least-squares line over the sample index;
for the claims below only the fact that the output length equals the input
length is needed). -/

def detrend (data : List ℝ) : List ℝ :=
  if data.length < 2 then data
  else
    let n : ℝ := data.length
    let sumX : ℝ := ((List.range data.length).map (fun (i : ℕ) => (i : ℝ))).sum
    let sumY : ℝ := data.sum
    let sumXY : ℝ := ((List.range data.length).map (fun (i : ℕ) => (i : ℝ) * data.getD i 0)).sum
    let sumXX : ℝ := ((List.range data.length).map (fun (i : ℕ) => (i : ℝ) * (i : ℝ))).sum
    let slope := (n * sumXY - sumX * sumY) / (n * sumXX - sumX * sumX)
    let intercept := (sumY - slope * sumX) / n
    data.enum.map (fun p => p.2 - (slope * p.1 + intercept))

/-! ## High-pass Boore filter

`hpMaskBase n fs fc i` is the raw brick-wall mask `f[i] >= fc ? 1 : 0` with
`f[i] = i * fs / n`. The symmetrization loops in utils.js highPassFilter,
SignalProcessor.highPassFilter and the GUI preprocessBoore all overwrite
`hpFilter[i] = hpFilter[N - i]` for `i` from `⌊N/2⌋ + 1` to `N - 1`
(the utils.js even branch writes `N/2 + 1` which equals `⌊N/2⌋ + 1` for even
N, and the GUI odd branch writes `⌊(N+1)/2⌋` which equals `⌊N/2⌋ + 1` for odd
N); each read index `N - i ≤ ⌊N/2⌋` is never itself overwritten, so the final
mask is the closed form `hpMask`. -/

def hpMaskBase (n : ℕ) (fs fc : ℝ) (i : ℕ) : ℝ :=
  if fc ≤ (i : ℝ) * fs / n then 1 else 0

def hpMask (n : ℕ) (fs fc : ℝ) (i : ℕ) : ℝ :=
  if n / 2 + 1 ≤ i then hpMaskBase n fs fc (n - i) else hpMaskBase n fs fc i

/-- utils.js `highPassFilter`: detrend, FFT, mask, inverse FFT, take the real
part. Note: NO final slice back to the input length. -/
def highPassFilter (data : List ℝ) (fs fc : ℝ) : Option (List ℝ) := do
  let det := detrend data
  let F ← fft det
  let filtered := F.enum.map
    (fun p => (⟨p.2.re * hpMask F.length fs fc p.1, p.2.im * hpMask F.length fs fc p.1⟩ : ℂ))
  let r ← ifft filtered
  some (r.map (fun c => c.re))

/-- processWithMatlab.js `SignalProcessor.highPassFilter` (the GUI
`preprocessBoore` is the same computation): detrend, FFT, mask, `SP.ifft`,
real part, and a final `.slice(0, data.length)`. -/
def SP.highPassFilter (data : List ℝ) (fs fc : ℝ) : Option (List ℝ) := do
  let det := detrend data
  let F ← fft det
  let filtered := F.enum.map
    (fun p => (⟨p.2.re * hpMask F.length fs fc p.1, p.2.im * hpMask F.length fs fc p.1⟩ : ℂ))
  let r ← SP.ifft filtered
  some ((r.map (fun c => c.re)).take data.length)

/-! ## Trapezoidal integration

`ctSteps` lists the per-interval trapezoid areas `(x[i]-x[i-1])*((y[i]+y[i-1])/2)`
of utils.js `cumtrapz` / `trapz`; `spCtSteps` lists the areas
`0.5*(d[i]+d[i-1])*dt` of `SignalProcessor.cumtrapz` (same values, written in
the order of that source). The JavaScript loops accumulate
`result[i] = result[i-1] + area`, starting from `result[0] = 0`, which is the
scan below. On an EMPTY input pair, utils.js allocates `new Array(0)` and then
the assignment `result[0] = 0` extends it, and the SignalProcessor version
starts from the literal `[0]`; both therefore return the one-element array
[0]. -/

def ctSteps : List (ℝ × ℝ) → List ℝ
  | (x0, y0) :: (x1, y1) :: rest => (x1 - x0) * ((y1 + y0) / 2) :: ctSteps ((x1, y1) :: rest)
  | _ => []

def spCtSteps : List (ℝ × ℝ) → List ℝ
  | (t0, d0) :: (t1, d1) :: rest => 0.5 * (d1 + d0) * (t1 - t0) :: spCtSteps ((t1, d1) :: rest)
  | _ => []

/-- utils.js `cumtrapz`: throws when the lengths differ, otherwise scans the
trapezoid areas. There is NO check on the time array being increasing. -/
def cumtrapz (x y : List ℝ) : Except String (List ℝ) :=
  if x.length ≠ y.length then Except.error "cumtrapz: x and y must have same length"
  else Except.ok (List.scanl (fun a b => a + b) 0 (ctSteps (x.zip y)))

/-- utils.js `trapz`: throws when the lengths differ or fewer than 2 samples,
otherwise returns the summed trapezoid areas. No monotonicity check either. -/
def trapz (x y : List ℝ) : Except String ℝ :=
  if x.length ≠ y.length ∨ x.length < 2 then
    Except.error "trapz: x and y must have same length and at least 2 elements"
  else Except.ok (ctSteps (x.zip y)).sum

/-- processWithMatlab.js `SignalProcessor.cumtrapz` (the GUI analyzer has a
verbatim copy): same length guard and the same scan, with the area written as
`0.5 * (data[i] + data[i-1]) * dt`. -/
def SP.cumtrapz (time data : List ℝ) : Except String (List ℝ) :=
  if time.length ≠ data.length then Except.error "Time and data arrays must have same length"
  else Except.ok (List.scanl (fun a b => a + b) 0 (spCtSteps (time.zip data)))

/-! ## Arias intensity -/

structure AriasResult where
  total : ℝ
  cumulative : List ℝ
  totalMeterUnits : ℝ

/-- processWithMatlab.js `SignalProcessor.calculateAriasIntensity` (the GUI
analyzer has a verbatim copy, with `gravitationalAccel = 9.81` in both
constructors): convert cm/s² to m/s², square, cumulative trapezoid, scale by
pi/(2g); `total` is the last cumulative value rescaled by 100 for cm units,
`totalMeterUnits` the unrescaled last value. The read
`cumulative[cumulative.length - 1]` is always in range because `cumtrapz`
returns at least the one-element array [0]. -/
def SP.calculateAriasIntensity (time acceleration : List ℝ) : Except String AriasResult :=
  let accMps2 := acceleration.map (fun a => a / 100)
  let accSquared := accMps2.map (fun a => a * a)
  match SP.cumtrapz time accSquared with
  | Except.error e => Except.error e
  | Except.ok ct =>
      let cumulative := ct.map (fun val => π / (2 * 9.81) * val)
      let total := cumulative.getD (cumulative.length - 1) 0
      Except.ok { total := total * 100
                  cumulative := cumulative.map (fun val => val * 100)
                  totalMeterUnits := total }

structure AnalysisAriasResult where
  ariasIntensity : ℝ
  cumulativeAI : List ℝ

/-- part_003 `EarthquakeAnalyzer.calculateAriasIntensity` (gravityConstant
9.81): same conversion and squaring; the reported total comes from the utils
`trapz` of the squared series (so it requires at least two samples), and the
cumulative curve from the utils `cumtrapz`; both are rescaled by 100. -/
def Analysis.calculateAriasIntensity (acceleration time : List ℝ) : Except String AnalysisAriasResult :=
  let g : ℝ := 9.81
  let accMeters := acceleration.map (fun acc => acc / 100)
  let accelerationSquared := accMeters.map (fun acc => acc * acc)
  match trapz time accelerationSquared with
  | Except.error e => Except.error e
  | Except.ok integral =>
      match cumtrapz time accelerationSquared with
      | Except.error e => Except.error e
      | Except.ok ct =>
          let ariasIntensity := π / (2 * g) * integral
          let cumulativeAI := ct.map (fun val => π / (2 * g) * val)
          Except.ok { ariasIntensity := ariasIntensity * 100
                      cumulativeAI := cumulativeAI.map (fun val => val * 100) }

/-! ## Newmark-Beta time integration

`NState` is one row of the three response arrays (u = displacement,
v = velocity, a = relative acceleration). Each implementation updates the
arrays in a loop `for j = 1 .. n-1` from row j-1 and the ground-acceleration
increment `acceleration[j] - acceleration[j-1]`; that is the scan over
`accelDiffs` below (for an empty input the JavaScript loops never run and the
arrays stay empty). -/

structure NState where
  u : ℝ
  v : ℝ
  a : ℝ

/-- One step of the recurrence as written in utils.js `newmarkBeta` AND in the
part_003 `calculateResponseSpectra` inner loop:
`dv = a1*(du - u[j-1]) - a4*v[j-1] - a5*acc[j-1]`,
`da = a0*(du - u[j-1]) - a2*v[j-1] - a3*acc[j-1]`. -/
def utilsNewmarkStep (keff a0 a1 a2 a3 a4 a5 m c : ℝ) (s : NState) (dAcc : ℝ) : NState :=
  let dp := -m * dAcc
  let rhs := dp + m * (a0 * s.u + a2 * s.v + a3 * s.a) + c * (a1 * s.u + a4 * s.v + a5 * s.a)
  let du := rhs / keff
  { u := du
    v := a1 * (du - s.u) - a4 * s.v - a5 * s.a
    a := a0 * (du - s.u) - a2 * s.v - a3 * s.a }

/-- One step of the recurrence as written in processWithMatlab.js
`calculateResponseSpectrum` AND its verbatim GUI copy:
`dv = a1*du - a4*u[j-1] - a2*v[j-1] - a5*a[j-1]`,
`da = a0*du - a0*u[j-1] - a2*v[j-1] - a3*a[j-1]` (same `rhs` and `du`). -/
def spNewmarkStep (keff a0 a1 a2 a3 a4 a5 m c : ℝ) (s : NState) (dAcc : ℝ) : NState :=
  let dp := -m * dAcc
  let rhs := dp + m * (a0 * s.u + a2 * s.v + a3 * s.a) + c * (a1 * s.u + a4 * s.v + a5 * s.a)
  let du := rhs / keff
  { u := du
    v := a1 * du - a4 * s.u - a2 * s.v - a5 * s.a
    a := a0 * du - a0 * s.u - a2 * s.v - a3 * s.a }

def accelDiffs (accel : List ℝ) : List ℝ :=
  (accel.zip accel.tail).map (fun p => p.2 - p.1)

def newmarkHist (step : NState → ℝ → NState) (accel : List ℝ) : List NState :=
  match accel with
  | [] => []
  | _ => List.scanl step ⟨0, 0, 0⟩ (accelDiffs accel)

/-- utils.js `newmarkBeta({acceleration, dt, omega, zeta, beta = 1/4,
gamma = 1/2})`: computes the SDOF constants and runs the recurrence; there is
no guard on `keff` in this function. -/
def newmarkBeta (acceleration : List ℝ) (dt omega zeta beta gamma : ℝ) : List NState :=
  let m : ℝ := 1
  let k := m * omega * omega
  let c := 2 * zeta * m * omega
  let a0 := 1 / (beta * dt * dt)
  let a1 := gamma / (beta * dt)
  let a2 := 1 / (beta * dt)
  let a3 := 1 / (2 * beta) - 1
  let a4 := gamma / beta - 1
  let a5 := dt * (gamma / (2 * beta) - 1)
  let keff := k + a0 * m + a1 * c
  newmarkHist (utilsNewmarkStep keff a0 a1 a2 a3 a4 a5 m c) acceleration

/-- `Math.max(...array.map(Math.abs))`. On an empty array the JavaScript
spread gives -Infinity; that case is unreachable in the claims below and is
modelled by the harmless value 0. -/
def maxAbs : List ℝ → ℝ
  | [] => 0
  | [a] => |a|
  | a :: b :: rest => max |a| (maxAbs (b :: rest))

/-- The period grid `for (let T = 0.01; T <= 10; T += 0.02)` of
processWithMatlab.js, the GUI analyzer and the part_003 default, taken in
exact real arithmetic: the values 0.01 + 0.02k satisfy T ≤ 10 exactly for
k ≤ 499, so the loop body runs 500 times. -/
def periodsGrid : List ℝ :=
  (List.range 500).map (fun (k : ℕ) => 0.01 + 0.02 * k)

/-- Effective stiffness at one period of the processWithMatlab.js sweep
(`omega = 2*pi*f` with `f = 1/T`; beta = 0.25, gamma = 0.5, unit mass). -/
def SP.keffAt (dt zeta T : ℝ) : ℝ :=
  let f := 1 / T
  let omega := 2 * π * f
  let m : ℝ := 1
  let k := m * omega * omega
  let c := 2 * zeta * m * omega
  let a0 := 1 / (0.25 * dt * dt)
  let a1 := 0.5 / (0.25 * dt)
  k + a0 * m + a1 * c

/-- The per-period response history of processWithMatlab.js
`calculateResponseSpectrum` (and its verbatim GUI copy). -/
def SP.newmarkHistAt (acceleration : List ℝ) (dt zeta T : ℝ) : List NState :=
  let f := 1 / T
  let omega := 2 * π * f
  let m : ℝ := 1
  let c := 2 * zeta * m * omega
  let a0 := 1 / (0.25 * dt * dt)
  let a1 := 0.5 / (0.25 * dt)
  let a2 := 1 / (0.25 * dt)
  let a3 := 1 / (2 * 0.25) - 1
  let a4 := 0.5 / 0.25 - 1
  let a5 := dt * (0.5 / (2 * 0.25) - 1)
  newmarkHist (spNewmarkStep (keffAt dt zeta T) a0 a1 a2 a3 a4 a5 m c) acceleration

/-- One period of the processWithMatlab.js sweep. The source guard is
`if (keff === 0 || !isFinite(keff))` — over ℝ the `isFinite` disjunct is
identically true, so only `keff = 0` is guarded; it pushes 0 for SD, PSV and
PSA and continues with the next period. -/
def SP.spectrumAtPeriod (acceleration : List ℝ) (dt zeta T : ℝ) : ℝ × ℝ × ℝ :=
  if keffAt dt zeta T = 0 then (0, 0, 0)
  else
    let hist := newmarkHistAt acceleration dt zeta T
    (maxAbs (hist.map NState.u), maxAbs (hist.map NState.v), maxAbs (hist.map NState.a))

structure SP.Spectrum where
  periods : List ℝ
  frequencies : List ℝ
  SD : List ℝ
  PSV : List ℝ
  PSA : List ℝ

/-- processWithMatlab.js `SignalProcessor.calculateResponseSpectrum` (GUI
copy verbatim): dt from the first two time samples, the 500-period grid, and
one `spectrumAtPeriod` per period. -/
def SP.calculateResponseSpectrum (acceleration time : List ℝ) (zeta : ℝ) : Spectrum :=
  let dt := time.getD 1 0 - time.getD 0 0
  { periods := periodsGrid
    frequencies := periodsGrid.map (fun T => 1 / T)
    SD := periodsGrid.map (fun T => (spectrumAtPeriod acceleration dt zeta T).1)
    PSV := periodsGrid.map (fun T => (spectrumAtPeriod acceleration dt zeta T).2.1)
    PSA := periodsGrid.map (fun T => (spectrumAtPeriod acceleration dt zeta T).2.2) }

/-- Effective stiffness at one period of the part_003 sweep
(`omega = 2*pi/T`; beta = 0.25, gamma = 0.5, unit mass). -/
def Analysis.keffAt (dt zeta T : ℝ) : ℝ :=
  let omega := 2 * π / T
  let m : ℝ := 1
  let k := m * omega * omega
  let c := 2 * zeta * m * omega
  let a0 := 1 / (0.25 * dt * dt)
  let a1 := 0.5 / (0.25 * dt)
  k + a0 * m + a1 * c

/-- The per-period response history of part_003 `calculateResponseSpectra`
(inner loop; same formulas as utils.js `newmarkBeta`). -/
def Analysis.newmarkHistAt (acceleration : List ℝ) (dt zeta T : ℝ) : List NState :=
  let omega := 2 * π / T
  let m : ℝ := 1
  let c := 2 * zeta * m * omega
  let a0 := 1 / (0.25 * dt * dt)
  let a1 := 0.5 / (0.25 * dt)
  let a2 := 1 / (0.25 * dt)
  let a3 := 1 / (2 * 0.25) - 1
  let a4 := 0.5 / 0.25 - 1
  let a5 := dt * (0.5 / (2 * 0.25) - 1)
  newmarkHist (utilsNewmarkStep (keffAt dt zeta T) a0 a1 a2 a3 a4 a5 m c) acceleration

/-- One period of the part_003 sweep. The source guard is
`if (!isFinite(keff) || keff <= 0) continue;` and the output arrays are
pre-filled with 0, so a non-positive `keff` leaves (0, 0, 0) for that period
(`isFinite` again identically true over ℝ). -/
def Analysis.spectrumAtPeriod (acceleration : List ℝ) (dt zeta T : ℝ) : ℝ × ℝ × ℝ :=
  if keffAt dt zeta T ≤ 0 then (0, 0, 0)
  else
    let hist := newmarkHistAt acceleration dt zeta T
    (maxAbs (hist.map NState.u), maxAbs (hist.map NState.v), maxAbs (hist.map NState.a))

/-- part_003 `calculateResponseSpectra`: nullable periods argument (null means
the default grid, which coincides with `periodsGrid`), nullable damping (the
JavaScript `damping || 0.05` also replaces an explicit 0 by the default,
because 0 is falsy), dt from the first two samples when available. -/
def Analysis.calculateResponseSpectra (acceleration time : List ℝ) (periods : Option (List ℝ))
    (damping : Option ℝ) : SP.Spectrum :=
  let zeta := match damping with
    | none => 0.05
    | some d => if d = 0 then 0.05 else d
  let dt := if 1 < time.length then time.getD 1 0 - time.getD 0 0 else 0.01
  let ps := match periods with
    | none => periodsGrid
    | some l => l
  { periods := ps
    frequencies := ps.map (fun T => 1 / T)
    SD := ps.map (fun T => (spectrumAtPeriod acceleration dt zeta T).1)
    PSV := ps.map (fun T => (spectrumAtPeriod acceleration dt zeta T).2.1)
    PSA := ps.map (fun T => (spectrumAtPeriod acceleration dt zeta T).2.2) }

/-! ## Bracketed duration

`JsNum` distinguishes the JavaScript values an implementation can place in
the start/end bound fields: an ordinary number, the floating-point NaN, the
value null, and the value undefined. -/

inductive JsNum where
  | num (x : ℝ)
  | nan
  | null
  | undef

structure BracketResult where
  duration : ℝ
  startTime : JsNum
  endTime : JsNum
  startIndex : ℤ
  endIndex : ℤ

/-- processWithMatlab.js `SignalProcessor.calculateBracketedDuration` (the GUI
analyzer has a verbatim copy). The source maps each index to itself when
`|acc| >= threshold` and to -1 otherwise, then filters out the -1 entries;
that equals filtering the index range by the predicate. With no exceedance it
returns duration 0 with NaN start/end times and -1 indices. -/
def SP.calculateBracketedDuration (time acceleration : List ℝ) (threshold : ℝ) : BracketResult :=
  let aboveThreshold := (List.range acceleration.length).filter
    (fun i => threshold ≤ |acceleration.getD i 0|)
  if aboveThreshold = [] then
    { duration := 0, startTime := JsNum.nan, endTime := JsNum.nan,
      startIndex := -1, endIndex := -1 }
  else
    let startIndex := aboveThreshold.getD 0 0
    let endIndex := aboveThreshold.getD (aboveThreshold.length - 1) 0
    { duration := time.getD endIndex 0 - time.getD startIndex 0
      startTime := JsNum.num (time.getD startIndex 0)
      endTime := JsNum.num (time.getD endIndex 0)
      startIndex := startIndex
      endIndex := endIndex }

structure AnalysisBracketResult where
  duration : ℝ
  startTime : JsNum
  endTime : JsNum
  threshold : ℝ
  exceedances : ℕ

/-- part_003 `EarthquakeAnalyzer.calculateBracketedDuration`. The nullable
threshold argument is combined as `threshold || (0.05 * PGA)`, so both null
and an explicit 0 fall back to five percent of the peak. With no exceedance it
returns duration 0 with NULL start/end times and an exceedance count of 0. -/
def Analysis.calculateBracketedDuration (acceleration time : List ℝ) (threshold : Option ℝ) :
    AnalysisBracketResult :=
  let PGA := maxAbs acceleration
  let thresh := match threshold with
    | none => 0.05 * PGA
    | some t => if t = 0 then 0.05 * PGA else t
  let aboveThreshold := (List.range acceleration.length).filter
    (fun i => thresh ≤ |acceleration.getD i 0|)
  if aboveThreshold = [] then
    { duration := 0, startTime := JsNum.null, endTime := JsNum.null,
      threshold := thresh, exceedances := 0 }
  else
    let first := aboveThreshold.getD 0 0
    let last := aboveThreshold.getD (aboveThreshold.length - 1) 0
    { duration := time.getD last 0 - time.getD first 0
      startTime := JsNum.num (time.getD first 0)
      endTime := JsNum.num (time.getD last 0)
      threshold := thresh
      exceedances := aboveThreshold.length }

/-! ## Site frequency -/

/-- `Math.max(...arr)` on a nonempty array is the left fold of max; the empty
case (JavaScript -Infinity) is modelled by 0 and is unreachable in the claims
below. -/
def listMax : List ℝ → ℝ
  | [] => 0
  | a :: t => t.foldl max a

structure SiteFreqResult where
  frequency : JsNum
  magnitude : JsNum
  frequencies : List ℝ
  magnitudes : List ℝ

/-- processWithMatlab.js `SignalProcessor.findSiteFrequency`: runs the padding
`fft`, lets N be the TRANSFORM length, then keeps only the first ⌊N/2⌋ bins
(`slice(0, Math.floor(N/2))` — the Nyquist bin N/2 is NOT included), with
frequencies `i*fs/N`, and picks `magnitudes.indexOf(Math.max(...magnitudes))`
(the first index attaining the maximum). With an empty half spectrum the
JavaScript lookups yield undefined; modelled by the explicit guard. -/
def SP.findSiteFrequency (acceleration : List ℝ) (fs : ℝ) : Option SiteFreqResult := do
  let F ← fft acceleration
  let N := F.length
  let frequencies := (List.range (N / 2)).map (fun (i : ℕ) => (i : ℝ) * fs / N)
  let magnitudes := (F.take (N / 2)).map (fun c => Real.sqrt (c.re * c.re + c.im * c.im))
  let maxIndex := List.indexOf (listMax magnitudes) magnitudes
  some { frequency := if magnitudes = [] then JsNum.undef
           else JsNum.num (frequencies.getD maxIndex 0)
         magnitude := if magnitudes = [] then JsNum.undef
           else JsNum.num (magnitudes.getD maxIndex 0)
         frequencies := frequencies
         magnitudes := magnitudes }

/-- earthquakeAnalysis.js `EarthquakeAnalyzer.findSiteFrequency`: same shape
as the SP version except that N is the RAW INPUT length (not the padded
transform length), both for the bin count ⌊N/2⌋ and for the frequency grid
`i*fs/N`. -/
def GUI.findSiteFrequency (acceleration : List ℝ) (fs : ℝ) : Option SiteFreqResult := do
  let N := acceleration.length
  let frequencies := (List.range (N / 2)).map (fun (i : ℕ) => (i : ℝ) * fs / N)
  let F ← fft acceleration
  let amplitudes := (F.take (N / 2)).map (fun c => Real.sqrt (c.re * c.re + c.im * c.im))
  let maxIndex := List.indexOf (listMax amplitudes) amplitudes
  some { frequency := if amplitudes = [] then JsNum.undef
           else JsNum.num (frequencies.getD maxIndex 0)
         magnitude := if amplitudes = [] then JsNum.undef
           else JsNum.num (amplitudes.getD maxIndex 0)
         frequencies := frequencies
         magnitudes := amplitudes }

/-- Modelled from the spec: the site-frequency argmax restricted to the
single-sided half spectrum covering indices 0 through N/2 INCLUSIVE (N the
FFT length), exactly as the claim words it, with ties broken by the first
occurrence; used only to exhibit the divergence from the code, which stops
at N/2 − 1. -/
def siteFrequencySpecSearch (accel : List ℝ) (fs : ℝ) : Option ℝ := do
  let F ← fft accel
  let mags := (F.take (F.length / 2 + 1)).map (fun c => Real.sqrt (c.re * c.re + c.im * c.im))
  let maxIndex := List.indexOf (listMax mags) mags
  some ((maxIndex : ℝ) * fs / F.length)

/-! ## Theorems -/

theorem complexAdd_eq (a b : ℂ) : complexAdd a b = a + b := by
  apply Complex.ext <;> simp [complexAdd]

theorem complexSubtract_eq (a b : ℂ) : complexSubtract a b = a - b := by
  apply Complex.ext <;> simp [complexSubtract]

theorem complexMultiply_eq (a b : ℂ) : complexMultiply a b = a * b := by
  apply Complex.ext <;> simp [complexMultiply, Complex.mul_re, Complex.mul_im]

theorem evens_get? {α : Type} : (x : List α) → (j : ℕ) → (evens x).get? j = x.get? (2 * j)
  | [], j => by simp [evens]
  | [a], j => by
      cases j with
      | zero => rfl
      | succ j => simp [evens, List.get?]
  | a :: b :: rest, j => by
      cases j with
      | zero => rfl
      | succ j =>
          have h2 : 2 * (j + 1) = 2 * j + 1 + 1 := by omega
          simp only [evens, List.get?, h2]
          exact evens_get? rest j

theorem odds_get? {α : Type} : (x : List α) → (j : ℕ) → (odds x).get? j = x.get? (2 * j + 1)
  | [], j => by simp [odds]
  | [a], j => by
      cases j with
      | zero => rfl
      | succ j => simp [odds, List.get?]
  | a :: b :: rest, j => by
      cases j with
      | zero => rfl
      | succ j =>
          have h2 : 2 * (j + 1) + 1 = 2 * j + 1 + 1 + 1 := by omega
          simp only [odds, List.get?, h2]
          exact odds_get? rest j

theorem evens_getD (x : List ℂ) (j : ℕ) : (evens x).getD j 0 = x.getD (2 * j) 0 := by
  simp only [List.getD_eq_getD_get?, evens_get?]

theorem odds_getD (x : List ℂ) (j : ℕ) : (odds x).getD j 0 = x.getD (2 * j + 1) 0 := by
  simp only [List.getD_eq_getD_get?, odds_get?]

theorem twiddle_eq_exp (k n : ℕ) :
    twiddle k n = Complex.exp ((-2 * π * k / n : ℝ) * Complex.I) := by
  apply Complex.ext
  · rw [Complex.exp_ofReal_mul_I_re]; rfl
  · rw [Complex.exp_ofReal_mul_I_im]; rfl

/-! ### Success and length of the radix-2 kernel on power-of-two inputs -/

theorem fftRecursive_short (x : List ℂ) (h : x.length ≤ 1) : fftRecursive x = some x := by
  rw [fftRecursive]
  simp [Nat.lt_of_succ_le, show ¬ 2 ≤ x.length by omega]

theorem fftRecursive_pow2_length (m : ℕ) :
    ∀ x : List ℂ, x.length = 2 ^ m → ∃ y, fftRecursive x = some y ∧ y.length = 2 ^ m := by
  induction m with
  | zero =>
      intro x hx
      exact ⟨x, fftRecursive_short x (by rw [hx]; norm_num), hx⟩
  | succ m ih =>
      intro x hx
      have hp : (2 : ℕ) ^ (m + 1) = 2 * 2 ^ m := by ring
      have hpos : 0 < (2 : ℕ) ^ m := Nat.pos_pow_of_pos m (by norm_num)
      have h2 : 2 ≤ x.length := by omega
      have he : (evens x).length = 2 ^ m := by rw [evens_length, hx]; omega
      have ho : (odds x).length = 2 ^ m := by rw [odds_length, hx]; omega
      obtain ⟨e, he1, he2⟩ := ih _ he
      obtain ⟨o, ho1, ho2⟩ := ih _ ho
      have hhalf : (x.length + 1) / 2 = 2 ^ m := by omega
      have hfloor : x.length / 2 = 2 ^ m := by omega
      refine ⟨(List.range (x.length / 2)).map
            (fun k => e.getD k 0 + twiddle k x.length * o.getD k 0)
          ++ (List.range (x.length / 2)).map
            (fun k => e.getD k 0 - twiddle k x.length * o.getD k 0), ?_, ?_⟩
      · rw [fftRecursive]
        simp only [h2, dif_pos, he1, ho1]
        rw [if_pos ⟨by omega, by omega⟩]
      · simp only [List.length_append, List.length_map, List.length_range]
        omega

theorem twiddle_eq_expw (k n : ℕ) : twiddle k n = expw n k := by
  rw [twiddle_eq_exp, expw]
  congr 1
  push_cast
  ring

theorem expw_zero (n : ℕ) : expw n 0 = 1 := by
  simp [expw]

theorem expw_add (n a b : ℕ) : expw n (a + b) = expw n a * expw n b := by
  rw [expw, expw, expw, ← Complex.exp_add]
  congr 1
  push_cast
  ring

theorem expw_pow (n t : ℕ) : expw n t = expw n 1 ^ t := by
  rw [expw, expw, ← Complex.exp_nat_mul]
  congr 1
  push_cast
  ring

theorem expw_n (n : ℕ) (hn : n ≠ 0) : expw n n = 1 := by
  have hdiv : ((n : ℂ)) / n = 1 := div_self (Nat.cast_ne_zero.2 hn)
  have harg : -(2 * (π : ℂ) * Complex.I * n / n) = ((-1 : ℤ)) * (2 * π * Complex.I) := by
    rw [mul_div_assoc, hdiv]
    push_cast
    ring
  rw [expw, harg, Complex.exp_int_mul_two_pi_mul_I]

theorem expw_mul_n (n a : ℕ) (hn : n ≠ 0) : expw n (a * n) = 1 := by
  rw [expw_pow, mul_comm a n, pow_mul, ← expw_pow, expw_n n hn, one_pow]

theorem expw_double (h t : ℕ) : expw (2 * h) (2 * t) = expw h t := by
  rw [expw, expw]
  congr 1
  push_cast
  rcases eq_or_ne (h : ℂ) 0 with h0 | h0
  · simp [h0]
  · field_simp
    ring

theorem expw_half (h : ℕ) (hh : h ≠ 0) : expw (2 * h) h = -1 := by
  have hc : (h : ℂ) ≠ 0 := Nat.cast_ne_zero.2 hh
  have harg : -(2 * (π : ℂ) * Complex.I * h / (2 * h : ℕ)) = -(π * Complex.I) := by
    push_cast
    field_simp
    ring
  rw [expw, harg, Complex.exp_neg, Complex.exp_pi_mul_I]
  norm_num

theorem sum_range_even_odd (f : ℕ → ℂ) :
    ∀ h : ℕ, ∑ j ∈ Finset.range (2 * h), f j
      = ∑ j ∈ Finset.range h, f (2 * j) + ∑ j ∈ Finset.range h, f (2 * j + 1) := by
  intro h
  induction h with
  | zero => simp
  | succ h ih =>
      have h2 : 2 * (h + 1) = (2 * h + 1) + 1 := by ring
      rw [h2, Finset.sum_range_succ, Finset.sum_range_succ,
        Finset.sum_range_succ (fun j => f (2 * j)), Finset.sum_range_succ (fun j => f (2 * j + 1)),
        ih]
      ring

theorem getD_range_map (f : ℕ → ℂ) (n k : ℕ) (hk : k < n) :
    ((List.range n).map f).getD k 0 = f k := by
  rw [List.getD_eq_getD_get?, List.get?_map, List.get?_range hk]
  rfl

/-- Splitting a DFT coefficient into the DFTs of the even and odd
subsequences (valid for every k, any list of even length). -/
theorem dft_split (x : List ℂ) (h k : ℕ) (hx : x.length = 2 * h) :
    dftVal x k = dftVal (evens x) k + expw (2 * h) k * dftVal (odds x) k := by
  have he : (evens x).length = h := by rw [evens_length, hx]; omega
  have ho : (odds x).length = h := by rw [odds_length, hx]; omega
  rw [dftVal, hx, sum_range_even_odd (fun j => x.getD j 0 * expw (2 * h) (j * k)) h]
  rw [dftVal, dftVal, he, ho, Finset.mul_sum]
  congr 1
  · apply Finset.sum_congr rfl
    intro j _
    rw [evens_getD]
    have harg : 2 * j * k = 2 * (j * k) := by ring
    rw [harg, expw_double]
  · apply Finset.sum_congr rfl
    intro j _
    rw [odds_getD]
    have harg : (2 * j + 1) * k = 2 * (j * k) + k := by ring
    rw [harg, expw_add, expw_double]
    ring

/-- A DFT coefficient is periodic in its index with period the list length. -/
theorem dftVal_period (z : List ℂ) (k : ℕ) (hz : z.length ≠ 0) :
    dftVal z (z.length + k) = dftVal z k := by
  rw [dftVal, dftVal]
  apply Finset.sum_congr rfl
  intro j _
  have harg : j * (z.length + k) = j * k + j * z.length := by ring
  rw [harg, expw_add, expw_mul_n _ _ hz, mul_one]

/-- Cooley-Tukey correctness: on inputs of power-of-two length the embedded
`fftRecursive` returns the exact DFT of its input. -/
theorem fftRecursive_dft (m : ℕ) :
    ∀ x : List ℂ, x.length = 2 ^ m →
      ∃ y, fftRecursive x = some y ∧ y.length = x.length ∧
        ∀ k, k < x.length → y.getD k 0 = dftVal x k := by
  induction m with
  | zero =>
      intro x hx
      refine ⟨x, fftRecursive_short x (by rw [hx]; norm_num), rfl, ?_⟩
      intro k hk
      have hk0 : k = 0 := by rw [hx] at hk; omega
      subst hk0
      rw [dftVal, hx]
      simp [expw_zero]
  | succ m ih =>
      intro x hx
      have hp : (2 : ℕ) ^ (m + 1) = 2 * 2 ^ m := by ring
      have hpos : 0 < (2 : ℕ) ^ m := Nat.pos_pow_of_pos m (by norm_num)
      have h2 : 2 ≤ x.length := by omega
      have he : (evens x).length = 2 ^ m := by rw [evens_length, hx]; omega
      have ho : (odds x).length = 2 ^ m := by rw [odds_length, hx]; omega
      obtain ⟨e, he1, he2, heV⟩ := ih _ he
      obtain ⟨o, ho1, ho2, hoV⟩ := ih _ ho
      have hhalf : (x.length + 1) / 2 = 2 ^ m := by omega
      have hfloor : x.length / 2 = 2 ^ m := by omega
      have hsplit : ∀ k, dftVal x k
          = dftVal (evens x) k + expw (2 * 2 ^ m) k * dftVal (odds x) k := by
        intro k
        exact dft_split x (2 ^ m) k (by omega)
      refine ⟨(List.range (x.length / 2)).map
            (fun k => e.getD k 0 + twiddle k x.length * o.getD k 0)
          ++ (List.range (x.length / 2)).map
            (fun k => e.getD k 0 - twiddle k x.length * o.getD k 0), ?_, ?_, ?_⟩
      · rw [fftRecursive]
        simp only [h2, dif_pos, he1, ho1]
        rw [if_pos ⟨by omega, by omega⟩]
      · simp only [List.length_append, List.length_map, List.length_range]
        omega
      · intro k hk
        have hlenA : ((List.range (x.length / 2)).map
            (fun k => e.getD k 0 + twiddle k x.length * o.getD k 0)).length = 2 ^ m := by
          simp only [List.length_map, List.length_range]
          omega
        rcases lt_or_ge k (2 ^ m) with hlow | hhigh
        · rw [List.getD_append _ _ _ _ (by omega), getD_range_map _ _ _ (by omega)]
          rw [heV k (by omega), hoV k (by omega), twiddle_eq_expw, hx, hp, hsplit k]
        · obtain ⟨k0, rfl⟩ : ∃ k0, k = 2 ^ m + k0 := ⟨k - 2 ^ m, by omega⟩
          have hk0 : k0 < 2 ^ m := by omega
          rw [List.getD_append_right _ _ _ _ (by omega)]
          rw [hlenA]
          have hidx : 2 ^ m + k0 - 2 ^ m = k0 := by omega
          rw [hidx, getD_range_map _ _ _ (by omega)]
          rw [heV k0 (by omega), hoV k0 (by omega), twiddle_eq_expw, hx, hp]
          have hperE : dftVal (evens x) (2 ^ m + k0) = dftVal (evens x) k0 := by
            have := dftVal_period (evens x) k0 (by omega)
            rw [he] at this
            exact this
          have hperO : dftVal (odds x) (2 ^ m + k0) = dftVal (odds x) k0 := by
            have := dftVal_period (odds x) k0 (by omega)
            rw [ho] at this
            exact this
          rw [hsplit (2 ^ m + k0), hperE, hperO, expw_add, expw_half _ (by omega)]
          ring

/-! ### DFT inversion -/

theorem expw_eq_exp_real (n t : ℕ) :
    expw n t = Complex.exp ((-2 * π * t / n : ℝ) * Complex.I) := by
  rw [← twiddle_eq_expw, twiddle_eq_exp]

theorem conj_expw (n t : ℕ) :
    (starRingEnd ℂ) (expw n t) = Complex.exp ((2 * π * t / n : ℝ) * Complex.I) := by
  rw [expw_eq_exp_real, ← Complex.exp_conj]
  congr 1
  rw [map_mul, Complex.conj_I, Complex.conj_ofReal]
  push_cast
  ring

theorem expw_mul_conj_self (n t : ℕ) : expw n t * (starRingEnd ℂ) (expw n t) = 1 := by
  rw [conj_expw, expw_eq_exp_real, ← Complex.exp_add]
  have harg : ((-2 * π * t / n : ℝ) : ℂ) * Complex.I + ((2 * π * t / n : ℝ) : ℂ) * Complex.I
      = 0 := by
    push_cast
    ring
  rw [harg, Complex.exp_zero]

theorem expw_pow_index (n p l : ℕ) : expw n (p * l) = expw n p ^ l := by
  rw [expw_pow, pow_mul, ← expw_pow]

/-- Orthogonality of the discrete characters: the geometric sum that drives
DFT inversion. -/
theorem sum_w (n j p : ℕ) (hn : n ≠ 0) (hj : j < n) (hp : p < n) :
    ∑ l ∈ Finset.range n, expw n (p * l) * (starRingEnd ℂ) (expw n (l * j))
      = if p = j then (n : ℂ) else 0 := by
  have hterm : ∀ l, expw n (p * l) * (starRingEnd ℂ) (expw n (l * j))
      = (expw n p * (starRingEnd ℂ) (expw n j)) ^ l := by
    intro l
    rw [mul_pow, expw_pow_index, mul_comm l j, expw_pow_index, map_pow]
  rw [Finset.sum_congr rfl (fun l _ => hterm l)]
  by_cases hpj : p = j
  · subst hpj
    rw [if_pos rfl]
    have hone : expw n p * (starRingEnd ℂ) (expw n p) = 1 := expw_mul_conj_self n p
    simp [hone]
  · rw [if_neg hpj]
    have hwn : (expw n p * (starRingEnd ℂ) (expw n j)) ^ n = 1 := by
      rw [mul_pow, ← expw_pow_index, ← map_pow, ← expw_pow_index]
      rw [expw_mul_n n p hn, expw_mul_n n j hn]
      simp
    have hw1 : expw n p * (starRingEnd ℂ) (expw n j) ≠ 1 := by
      intro hw
      rw [expw_eq_exp_real, conj_expw, ← Complex.exp_add] at hw
      have harg : ((-2 * π * p / n : ℝ) : ℂ) * Complex.I + ((2 * π * j / n : ℝ) : ℂ) * Complex.I
          = ((2 * π * j / n - 2 * π * p / n : ℝ) : ℂ) * Complex.I := by
        push_cast
        ring
      rw [harg] at hw
      obtain ⟨t, ht⟩ := Complex.exp_eq_one_iff.mp hw
      have him : (2 * π * j / n - 2 * π * p / n : ℝ) = t * (2 * π) := by
        have := congrArg Complex.im ht
        simpa using this
      have hπ := Real.pi_ne_zero
      have hn' : (n : ℝ) ≠ 0 := Nat.cast_ne_zero.2 hn
      have hint : (j : ℝ) - p = t * n := by
        have h2 : 2 * π * ((j : ℝ) - p) = 2 * π * (t * n) := by
          field_simp at him
          linarith [him]
        have h2π : (2 * π : ℝ) ≠ 0 := by positivity
        exact mul_left_cancel₀ h2π h2
      have hintz : (j : ℤ) - p = t * n := by exact_mod_cast hint
      have hjz : (j : ℤ) < n := by exact_mod_cast hj
      have hpz : (p : ℤ) < n := by exact_mod_cast hp
      have hnz : (0 : ℤ) < n := by exact_mod_cast Nat.pos_of_ne_zero hn
      rcases lt_trichotomy t 0 with ht0 | ht0 | ht0
      · have h1 : t ≤ -1 := by omega
        have : t * (n : ℤ) ≤ -1 * n := by
          apply mul_le_mul_of_nonneg_right h1 (by omega)
        omega
      · subst ht0
        simp at hintz
        exact hpj (by omega)
      · have h1 : 1 ≤ t := by omega
        have : 1 * (n : ℤ) ≤ t * n := by
          apply mul_le_mul_of_nonneg_right h1 (by omega)
        omega
    rw [geom_sum_eq hw1, hwn]
    simp

theorem getD_map_lt {α β : Type} (f : α → β) (l : List α) (k : ℕ) (d : α) (d' : β)
    (hk : k < l.length) : (l.map f).getD k d' = f (l.getD k d) := by
  rw [List.getD_eq_getD_get?, List.getD_eq_getD_get?, List.get?_map]
  rcases List.get?_eq_get hk with h
  rw [h]
  rfl

/-- DFT inversion: summing the DFT coefficients against the conjugated
characters recovers n times the original entry. -/
theorem dft_inv_sum (x : List ℂ) (j : ℕ) (hn : x.length ≠ 0) (hj : j < x.length) :
    ∑ l ∈ Finset.range x.length, dftVal x l * (starRingEnd ℂ) (expw x.length (l * j))
      = (x.length : ℂ) * x.getD j 0 := by
  calc ∑ l ∈ Finset.range x.length, dftVal x l * (starRingEnd ℂ) (expw x.length (l * j))
      = ∑ l ∈ Finset.range x.length, ∑ p ∈ Finset.range x.length,
          x.getD p 0 * (expw x.length (p * l) * (starRingEnd ℂ) (expw x.length (l * j))) := by
        apply Finset.sum_congr rfl
        intro l _
        rw [dftVal, Finset.sum_mul]
        apply Finset.sum_congr rfl
        intro p _
        ring
    _ = ∑ p ∈ Finset.range x.length, ∑ l ∈ Finset.range x.length,
          x.getD p 0 * (expw x.length (p * l) * (starRingEnd ℂ) (expw x.length (l * j))) :=
        Finset.sum_comm
    _ = ∑ p ∈ Finset.range x.length, x.getD p 0 *
          ∑ l ∈ Finset.range x.length,
            expw x.length (p * l) * (starRingEnd ℂ) (expw x.length (l * j)) := by
        apply Finset.sum_congr rfl
        intro p _
        rw [Finset.mul_sum]
    _ = ∑ p ∈ Finset.range x.length, x.getD p 0 * (if p = j then (x.length : ℂ) else 0) := by
        apply Finset.sum_congr rfl
        intro p hp
        rw [sum_w x.length j p hn hj (Finset.mem_range.mp hp)]
    _ = (x.length : ℂ) * x.getD j 0 := by
        rw [Finset.sum_eq_single j]
        · rw [if_pos rfl]
          ring
        · intro p _ hpj
          rw [if_neg hpj, mul_zero]
        · intro hjm
          exact absurd (Finset.mem_range.mpr hj) hjm

theorem conj_mk (c : ℂ) : (⟨c.re, -c.im⟩ : ℂ) = (starRingEnd ℂ) c := by
  apply Complex.ext <;> simp

theorem clog_pow_self (m : ℕ) : Nat.clog 2 (2 ^ m) = m := Nat.clog_pow 2 m (by norm_num)

/-- On a power-of-two length the padding loop of utils.js `fft` adds nothing,
so the padded entry point coincides with the raw radix-2 kernel. -/
theorem fftC_pow2 (x : List ℂ) (m : ℕ) (hx : x.length = 2 ^ m) :
    fftC x = fftRecursive x := by
  rw [fftC]
  by_cases h1 : x.length ≤ 1
  · rw [if_pos h1, fftRecursive_short x h1]
  · rw [if_neg h1]
    have hpad : nextPow2 x.length = x.length := by
      rw [nextPow2, hx, clog_pow_self]
    rw [hpad, Nat.sub_self, List.replicate_zero, List.append_nil]

/-- C1: FFT round trip on power-of-two input lengths — utils.js `ifft`
applied to utils.js `fft` (conjugate, forward transform, conjugate, divide by
N) returns the real-valued input exactly in the real-number model: the real
part equals the input elementwise, the imaginary part is 0, and hence the
elementwise difference is within the 1e-9 relative tolerance the spec
guarantees. -/
theorem fft_ifft_roundtrip (x : List ℝ) (m : ℕ) (hx : x.length = 2 ^ m) :
    ∃ y z, fft x = some y ∧ ifft y = some z ∧ z.length = x.length ∧
      ∀ i, i < x.length →
        (z.getD i 0).re = x.getD i 0 ∧ (z.getD i 0).im = 0 ∧
        |(z.getD i 0).re - x.getD i 0| ≤ 1e-9 * |x.getD i 0| := by
  have hnpos : 0 < x.length := by rw [hx]; positivity
  have hn0 : x.length ≠ 0 := by omega
  set xc : List ℂ := x.map Complex.ofReal with hxc
  have hxclen : xc.length = 2 ^ m := by rw [hxc, List.length_map, hx]
  obtain ⟨y, hy1, hy2, hyV⟩ := fftRecursive_dft m xc hxclen
  have hfft : fft x = some y := by
    rw [fft, fftC_pow2 _ m hxclen, hy1]
  set y' : List ℂ := y.map (fun c => (⟨c.re, -c.im⟩ : ℂ)) with hy'
  have hy'len : y'.length = 2 ^ m := by
    rw [hy', List.length_map, hy2, hxclen]
  obtain ⟨r, hr1, hr2, hrV⟩ := fftRecursive_dft m y' hy'len
  have hifft : ifft y = some (r.map (fun c => (⟨c.re / r.length, -(c.im / r.length)⟩ : ℂ))) := by
    rw [ifft, fftC_pow2 _ m hy'len, hr1]
    rfl
  have hrlen : r.length = x.length := by rw [hr2, hy'len, hx]
  refine ⟨y, r.map (fun c => (⟨c.re / r.length, -(c.im / r.length)⟩ : ℂ)), hfft, hifft, ?_, ?_⟩
  · rw [List.length_map, hrlen]
  · intro i hi
    have hilen : i < r.length := by rw [hrlen]; exact hi
    have hzi : (r.map (fun c => (⟨c.re / r.length, -(c.im / r.length)⟩ : ℂ))).getD i 0
        = ⟨(r.getD i 0).re / r.length, -((r.getD i 0).im / r.length)⟩ :=
      getD_map_lt _ r i 0 0 hilen
    have hri : r.getD i 0 = dftVal y' i := by
      apply hrV
      rw [hy'len, ← hx]
      exact hi
    have hdft : dftVal y' i = (x.length : ℂ) * (x.getD i 0 : ℝ) := by
      rw [dftVal, hy'len, ← hxclen]
      have hstep : ∀ l ∈ Finset.range xc.length,
          y'.getD l 0 * expw xc.length (l * i)
            = (starRingEnd ℂ) (dftVal xc l * (starRingEnd ℂ) (expw xc.length (l * i))) := by
        intro l hl
        have hl' : l < y.length := by
          rw [hy2]
          exact Finset.mem_range.mp hl
        have hyl : y'.getD l 0 = (starRingEnd ℂ) (y.getD l 0) := by
          rw [hy', getD_map_lt _ y l 0 0 hl', conj_mk]
        rw [hyl, hyV l (by rw [← hy2]; exact hl'), map_mul, Complex.conj_conj]
      rw [Finset.sum_congr rfl hstep, ← map_sum]
      rw [dft_inv_sum xc i (by rw [hxclen]; positivity) (by rw [hxclen, ← hx]; exact hi)]
      have hgx : xc.getD i 0 = ((x.getD i 0 : ℝ) : ℂ) := getD_map_lt _ x i 0 0 hi
      rw [map_mul, hgx, Complex.conj_ofReal, map_natCast, hxclen, hx]
    have hre : (r.getD i 0).re = x.length * x.getD i 0 := by
      rw [hri, hdft]
      simp [Complex.mul_re]
    have him : (r.getD i 0).im = 0 := by
      rw [hri, hdft]
      simp [Complex.mul_im]
    have hnR : (x.length : ℝ) ≠ 0 := Nat.cast_ne_zero.2 hn0
    have hfin : (r.getD i 0).re / r.length = x.getD i 0 := by
      rw [hre, hrlen]
      field_simp
    refine ⟨by rw [hzi, hfin], ?_, ?_⟩
    · rw [hzi]
      show -((r.getD i 0).im / r.length) = 0
      rw [him, zero_div, neg_zero]
    rw [hzi]
    simp only [hfin, sub_self, abs_zero]
    positivity

theorem detrend_length (data : List ℝ) : (detrend data).length = data.length := by
  rw [detrend]
  by_cases h : data.length < 2
  · rw [if_pos h]
  · rw [if_neg h]
    simp

/-! ## Power-of-two padding facts -/

theorem le_nextPow2 (n : ℕ) : n ≤ nextPow2 n := by
  rw [nextPow2]
  exact Nat.le_pow_clog (by norm_num) n

theorem nextPow2_min (n k : ℕ) (h : n ≤ 2 ^ k) : nextPow2 n ≤ 2 ^ k := by
  rw [nextPow2]
  exact Nat.pow_le_pow_right (by norm_num) ((Nat.le_pow_iff_clog_le (by norm_num)).mp h)

/-- For inputs of length at least 2, the padding `fft` succeeds and its output
length is exactly `nextPow2` of the input length. -/
theorem fft_pow2_form (x : List ℝ) (h : 2 ≤ x.length) :
    ∃ F, fft x = some F ∧ F.length = nextPow2 x.length := by
  rw [fft, fftC, List.length_map, if_neg (by omega)]
  have hplen : (x.map Complex.ofReal ++ List.replicate (nextPow2 x.length - x.length) 0).length
      = 2 ^ Nat.clog 2 x.length := by
    have := le_nextPow2 x.length
    simp only [List.length_append, List.length_map, List.length_replicate]
    rw [nextPow2] at *
    omega
  obtain ⟨F, hF, hFlen⟩ := fftRecursive_pow2_length (Nat.clog 2 x.length) _ hplen
  exact ⟨F, hF, by rw [hFlen]; rfl⟩

theorem spCtSteps_eq_ctSteps : ∀ l : List (ℝ × ℝ), spCtSteps l = ctSteps l
  | [] => rfl
  | [_] => rfl
  | (t0, d0) :: (t1, d1) :: rest => by
      rw [spCtSteps, ctSteps, spCtSteps_eq_ctSteps ((t1, d1) :: rest)]
      congr 1
      ring

theorem ctSteps_length : ∀ l : List (ℝ × ℝ), (ctSteps l).length = l.length - 1
  | [] => rfl
  | [_] => rfl
  | (x0, y0) :: (x1, y1) :: rest => by
      rw [ctSteps]
      simp only [List.length_cons, ctSteps_length ((x1, y1) :: rest)]
      simp

theorem scanl_add_head (l : List ℝ) (a : ℝ) :
    (List.scanl (fun a b => a + b) a l).getD 0 0 = a := by
  cases l <;> simp [List.scanl]

theorem scanl_add_last (l : List ℝ) : ∀ a : ℝ,
    (List.scanl (fun a b => a + b) a l).getD ((List.scanl (fun a b => a + b) a l).length - 1) 0
      = a + l.sum := by
  induction l with
  | nil => intro a; simp [List.scanl]
  | cons b t ih =>
      intro a
      rw [List.scanl_cons]
      have hlen : ([a] ++ List.scanl (fun a b => a + b) (a + b) t).length
          = (List.scanl (fun a b => a + b) (a + b) t).length + 1 := by
        simp
      rw [hlen]
      have hpos : 0 < (List.scanl (fun a b => a + b) (a + b) t).length := by
        rw [List.length_scanl]
        omega
      rw [List.getD_append_right _ _ _ _ (by simp; omega)]
      simp only [List.length_singleton]
      have hidx : (List.scanl (fun a b => a + b) (a + b) t).length + 1 - 1 - 1
          = (List.scanl (fun a b => a + b) (a + b) t).length - 1 := by omega
      rw [hidx, ih (a + b)]
      simp [List.sum_cons]
      ring

/-- Telescoping: the total trapezoid area of a CONSTANT sequence over any time
array equals the constant times the elapsed time. -/
theorem ctSteps_const_sum : ∀ (x : List ℝ) (c : ℝ),
    (ctSteps (x.zip (List.replicate x.length c))).sum
      = c * (x.getD (x.length - 1) 0 - x.getD 0 0)
  | [], c => by simp [ctSteps]
  | [a], c => by simp [ctSteps]
  | a :: b :: rest, c => by
      have ih := ctSteps_const_sum (b :: rest) c
      have hzip : (a :: b :: rest).zip (List.replicate (a :: b :: rest).length c)
          = (a, c) :: (b :: rest).zip (List.replicate (b :: rest).length c) := by
        simp [List.replicate_succ]
      have hzip2 : (b :: rest).zip (List.replicate (b :: rest).length c)
          = (b, c) :: rest.zip (List.replicate rest.length c) := by
        simp [List.replicate_succ]
      rw [hzip, hzip2, ctSteps, ← hzip2, List.sum_cons, ih]
      have hidx : (a :: b :: rest).length - 1 = ((b :: rest).length - 1) + 1 := by
        simp
      rw [hidx, List.getD_cons_succ, List.getD_cons_zero, List.getD_cons_zero]
      ring

/-! ## Claim theorems -/

/-- C10: on empty inputs both cumtrapz implementations return the one-element
array [0] (so output length equals input length only for non-empty inputs);
on every non-empty equal-length input pair the output has the input length
and its first element is 0. -/
theorem c10_cumtrapz_empty_and_lengths :
    (cumtrapz [] [] = Except.ok [0] ∧ SP.cumtrapz [] [] = Except.ok [0]) ∧
    (∀ x y : List ℝ, x ≠ [] → x.length = y.length →
      ∃ r, cumtrapz x y = Except.ok r ∧ r.length = x.length ∧ r.getD 0 0 = 0) ∧
    (∀ time data : List ℝ, time ≠ [] → time.length = data.length →
      ∃ r, SP.cumtrapz time data = Except.ok r ∧ r.length = time.length ∧ r.getD 0 0 = 0) := by
  refine ⟨⟨?_, ?_⟩, ?_, ?_⟩
  · rw [cumtrapz, if_neg (by simp)]
    simp [ctSteps, List.scanl]
  · rw [SP.cumtrapz, if_neg (by simp)]
    simp [spCtSteps, List.scanl]
  · intro x y hne hlen
    rw [cumtrapz, if_neg (by omega)]
    refine ⟨_, rfl, ?_, scanl_add_head _ _⟩
    rw [List.length_scanl, ctSteps_length, List.length_zip, ← hlen, min_self]
    have : 0 < x.length := List.length_pos.mpr hne
    omega
  · intro time data hne hlen
    rw [SP.cumtrapz, if_neg (by omega)]
    refine ⟨_, rfl, ?_, scanl_add_head _ _⟩
    rw [List.length_scanl, spCtSteps_eq_ctSteps, ctSteps_length, List.length_zip, ← hlen, min_self]
    have : 0 < time.length := List.length_pos.mpr hne
    omega

/-- Witness for C10 at the one-element inputs [0], [0]. -/
theorem c10_witness :
    ([(0 : ℝ)] ≠ ([] : List ℝ)) ∧
    (∃ r, cumtrapz [(0 : ℝ)] [(0 : ℝ)] = Except.ok r ∧ r.length = 1 ∧ r.getD 0 0 = 0) ∧
    (∃ r, SP.cumtrapz [(0 : ℝ)] [(0 : ℝ)] = Except.ok r ∧ r.length = 1 ∧ r.getD 0 0 = 0) :=
  ⟨by simp, c10_cumtrapz_empty_and_lengths.2.1 [0] [0] (by simp) rfl,
    c10_cumtrapz_empty_and_lengths.2.2 [0] [0] (by simp) rfl⟩

/-- C7 (counterexample): the time array [0, 0] is not strictly increasing,
yet `cumtrapz` happily returns an integral result instead of failing with a
NonMonotonicTime error — no monotonicity check exists in either
implementation. -/
theorem c7_counterexample : cumtrapz [(0 : ℝ), 0] [(1 : ℝ), 1] = Except.ok [0, 0] := by
  rw [cumtrapz, if_neg (by simp)]
  have hsteps : ctSteps ([(0 : ℝ), 0].zip [(1 : ℝ), 1]) = [0] := by
    simp [ctSteps]
  rw [hsteps]
  simp [List.scanl]

/-- C7 (amended): cumulativeTrapezoid fails with its length-mismatch error
exactly when the two arrays differ in length; equal-length input always
produces an integral result (the two implementations agree on it), with no
check at all on the time array being strictly increasing. -/
theorem c7_cumtrapz_error_behavior :
    (∀ x y : List ℝ, x.length ≠ y.length →
      cumtrapz x y = Except.error "cumtrapz: x and y must have same length" ∧
      SP.cumtrapz x y = Except.error "Time and data arrays must have same length") ∧
    (∀ x y : List ℝ, x.length = y.length →
      ∃ r, cumtrapz x y = Except.ok r ∧ SP.cumtrapz x y = Except.ok r) := by
  constructor
  · intro x y hne
    rw [cumtrapz, if_pos hne, SP.cumtrapz, if_pos hne]
    exact ⟨rfl, rfl⟩
  · intro x y heq
    rw [cumtrapz, if_neg (by omega), SP.cumtrapz, if_neg (by omega), spCtSteps_eq_ctSteps]
    exact ⟨_, rfl, rfl⟩

/-- Witness for C7 at concrete inputs: [0] versus [] mismatch, and the
equal-length pair [0, 0], [1, 1]. -/
theorem c7_witness :
    (([(0 : ℝ)].length ≠ ([] : List ℝ).length) ∧
      cumtrapz [(0 : ℝ)] [] = Except.error "cumtrapz: x and y must have same length" ∧
      SP.cumtrapz [(0 : ℝ)] [] = Except.error "Time and data arrays must have same length") ∧
    (∃ r, cumtrapz [(0 : ℝ), 0] [(1 : ℝ), 1] = Except.ok r ∧
      SP.cumtrapz [(0 : ℝ), 0] [(1 : ℝ), 1] = Except.ok r) :=
  ⟨⟨by simp, c7_cumtrapz_error_behavior.1 [0] [] (by simp)⟩,
    c7_cumtrapz_error_behavior.2 [0, 0] [1, 1] rfl⟩

/-- C5 (counterexample): with no sample reaching the threshold, the
processWithMatlab implementation returns NaN bounds — not an undefined
sentinel. -/
theorem c5_counterexample :
    (SP.calculateBracketedDuration [(0 : ℝ)] [(0 : ℝ)] 1).startTime = JsNum.nan ∧
    JsNum.nan ≠ JsNum.undef := by
  constructor
  · rw [SP.calculateBracketedDuration]
    rw [if_pos ?_]
    · apply List.filter_eq_nil.mpr
      intro a ha
      simp only [List.mem_range, List.length_cons, List.length_nil] at ha
      have ha0 : a = 0 := by omega
      subst ha0
      simp
  · intro h
    exact JsNum.noConfusion h

/-- C5 (amended): when no sample reaches the (nonzero) threshold, all three
bracketed-duration implementations return duration 0, but the bounds are the
floating-point NaN (with indices -1) in processWithMatlab.js and its verbatim
GUI copy, and an explicit null sentinel (with exceedance count 0) in the
part_003 analysis module — none of them uses an undefined sentinel. -/
theorem c5_no_exceedance_sentinels (time accel : List ℝ) (threshold : ℝ)
    (h0 : threshold ≠ 0)
    (hno : ∀ i, i < accel.length → |accel.getD i 0| < threshold) :
    SP.calculateBracketedDuration time accel threshold
      = { duration := 0, startTime := JsNum.nan, endTime := JsNum.nan,
          startIndex := -1, endIndex := -1 } ∧
    Analysis.calculateBracketedDuration accel time (some threshold)
      = { duration := 0, startTime := JsNum.null, endTime := JsNum.null,
          threshold := threshold, exceedances := 0 } := by
  have hfilter : ((List.range accel.length).filter
      (fun i => threshold ≤ |accel.getD i 0|)) = [] := by
    apply List.filter_eq_nil.mpr
    intro a ha
    simp only [List.mem_range] at ha
    simp only [decide_eq_true_eq]
    exact not_le.mpr (hno a ha)
  constructor
  · rw [SP.calculateBracketedDuration]
    rw [if_pos hfilter]
  · rw [Analysis.calculateBracketedDuration]
    simp only [if_neg h0, hfilter]
    rw [if_pos trivial]

/-- Witness for C5 at time [0], acceleration [0], threshold 1. -/
theorem c5_witness :
    ((1 : ℝ) ≠ 0) ∧
    SP.calculateBracketedDuration [(0 : ℝ)] [(0 : ℝ)] 1
      = { duration := 0, startTime := JsNum.nan, endTime := JsNum.nan,
          startIndex := -1, endIndex := -1 } ∧
    Analysis.calculateBracketedDuration [(0 : ℝ)] [(0 : ℝ)] (some 1)
      = { duration := 0, startTime := JsNum.null, endTime := JsNum.null,
          threshold := 1, exceedances := 0 } :=
  ⟨by norm_num,
    (c5_no_exceedance_sentinels [0] [0] 1 (by norm_num)
      (by intro i hi; simp at hi; subst hi; simp)).1,
    (c5_no_exceedance_sentinels [0] [0] 1 (by norm_num)
      (by intro i hi; simp at hi; subst hi; simp)).2⟩

theorem sp_cumtrapz_const (time : List ℝ) (c : ℝ) :
    SP.cumtrapz time (List.replicate time.length c)
      = Except.ok (List.scanl (fun a b => a + b) 0
          (ctSteps (time.zip (List.replicate time.length c)))) := by
  rw [SP.cumtrapz, if_neg (by simp), spCtSteps_eq_ctSteps]

theorem cumtrapz_const (time : List ℝ) (c : ℝ) :
    cumtrapz time (List.replicate time.length c)
      = Except.ok (List.scanl (fun a b => a + b) 0
          (ctSteps (time.zip (List.replicate time.length c)))) := by
  rw [cumtrapz, if_neg (by simp)]

theorem scanl_ctSteps_last (time : List ℝ) (c : ℝ) :
    (List.scanl (fun a b => a + b) 0 (ctSteps (time.zip (List.replicate time.length c)))).getD
      ((List.scanl (fun a b => a + b) 0
        (ctSteps (time.zip (List.replicate time.length c)))).length - 1) 0
      = c * (time.getD (time.length - 1) 0 - time.getD 0 0) := by
  rw [scanl_add_last, ctSteps_const_sum, zero_add]

theorem replicate_conv (n : ℕ) (aM : ℝ) :
    ((List.replicate n (100 * aM)).map (fun a => a / 100)).map (fun a => a * a)
      = List.replicate n (aM * aM) := by
  rw [List.map_replicate, List.map_replicate]
  congr 1
  field_simp

/-- C8: the Arias intensity of a constant acceleration over any time array.
The series handed to the implementations is `100 * aM` in the cm/s² input
units, so that `aM` is the constant acceleration in m/s² after the
conversion performed by the code; with T the elapsed time, the meter-units
total of processWithMatlab equals pi/(2g)·aM²·T exactly, the reported
cm-rescaled totals of both implementations equal 100 times that, and the
all-zero series yields total 0. -/
theorem c8_arias_constant (time : List ℝ) (aM : ℝ) (hne : time ≠ []) :
    (∃ r, SP.calculateAriasIntensity time (List.replicate time.length (100 * aM))
        = Except.ok r ∧
      r.totalMeterUnits
        = π / (2 * 9.81) * aM ^ 2 * (time.getD (time.length - 1) 0 - time.getD 0 0) ∧
      r.total
        = 100 * (π / (2 * 9.81) * aM ^ 2 * (time.getD (time.length - 1) 0 - time.getD 0 0))) ∧
    (∃ r, SP.calculateAriasIntensity time (List.replicate time.length 0) = Except.ok r ∧
      r.total = 0 ∧ r.totalMeterUnits = 0) ∧
    (2 ≤ time.length →
      ∃ r, Analysis.calculateAriasIntensity (List.replicate time.length (100 * aM)) time
          = Except.ok r ∧
        r.ariasIntensity
          = 100 * (π / (2 * 9.81) * aM ^ 2 * (time.getD (time.length - 1) 0 - time.getD 0 0))) := by
  have hnpos : 0 < time.length := List.length_pos.mpr hne
  have htotal : ∀ b : ℝ,
      ∃ r, SP.calculateAriasIntensity time (List.replicate time.length (100 * b))
          = Except.ok r ∧
        r.totalMeterUnits
          = π / (2 * 9.81) * b ^ 2 * (time.getD (time.length - 1) 0 - time.getD 0 0) ∧
        r.total
          = 100 * (π / (2 * 9.81) * b ^ 2 * (time.getD (time.length - 1) 0 - time.getD 0 0)) := by
    intro b
    rw [SP.calculateAriasIntensity, replicate_conv, sp_cumtrapz_const]
    set ct := List.scanl (fun a b => a + b) 0
      (ctSteps (time.zip (List.replicate time.length (b * b)))) with hct
    have hctlen : 0 < ct.length := by
      rw [hct, List.length_scanl]
      omega
    have hmaplen : (ct.map (fun val => π / (2 * 9.81) * val)).length = ct.length :=
      List.length_map _ _
    have hlast : (ct.map (fun val => π / (2 * 9.81) * val)).getD
        ((ct.map (fun val => π / (2 * 9.81) * val)).length - 1) 0
        = π / (2 * 9.81) * (b * b) * (time.getD (time.length - 1) 0 - time.getD 0 0) := by
      rw [hmaplen, getD_map_lt _ ct (ct.length - 1) 0 0 (by omega)]
      rw [hct, scanl_ctSteps_last]
      ring
    refine ⟨_, rfl, ?_, ?_⟩
    · simp only [hlast]
      ring
    · simp only [hlast]
      ring
  refine ⟨htotal aM, ?_, ?_⟩
  · obtain ⟨r, hr, hm, ht⟩ := htotal 0
    rw [mul_zero] at hr
    refine ⟨r, hr, ?_, ?_⟩
    · rw [ht]; ring
    · rw [hm]; ring
  · intro h2
    rw [Analysis.calculateAriasIntensity, replicate_conv]
    rw [trapz, if_neg (by simp; omega), cumtrapz_const]
    refine ⟨_, rfl, ?_⟩
    simp only [ctSteps_const_sum]
    ring

/-- Witness for C8 at time [0, 1] and constant acceleration 1 m/s²
(input series value 100 cm/s²). -/
theorem c8_witness :
    ([(0 : ℝ), 1] ≠ ([] : List ℝ)) ∧ (2 ≤ [(0 : ℝ), 1].length) ∧
    ((∃ r, SP.calculateAriasIntensity [(0 : ℝ), 1]
          (List.replicate [(0 : ℝ), 1].length (100 * 1)) = Except.ok r ∧
        r.totalMeterUnits = π / (2 * 9.81) * 1 ^ 2
          * ([(0 : ℝ), 1].getD ([(0 : ℝ), 1].length - 1) 0 - [(0 : ℝ), 1].getD 0 0) ∧
        r.total = 100 * (π / (2 * 9.81) * 1 ^ 2
          * ([(0 : ℝ), 1].getD ([(0 : ℝ), 1].length - 1) 0 - [(0 : ℝ), 1].getD 0 0))) ∧
      (∃ r, SP.calculateAriasIntensity [(0 : ℝ), 1]
          (List.replicate [(0 : ℝ), 1].length 0) = Except.ok r ∧
        r.total = 0 ∧ r.totalMeterUnits = 0) ∧
      (2 ≤ [(0 : ℝ), 1].length →
        ∃ r, Analysis.calculateAriasIntensity
            (List.replicate [(0 : ℝ), 1].length (100 * 1)) [(0 : ℝ), 1] = Except.ok r ∧
          r.ariasIntensity = 100 * (π / (2 * 9.81) * 1 ^ 2
            * ([(0 : ℝ), 1].getD ([(0 : ℝ), 1].length - 1) 0 - [(0 : ℝ), 1].getD 0 0)))) :=
  ⟨by simp, by simp, c8_arias_constant [(0 : ℝ), 1] 1 (by simp)⟩

theorem nextPow2_three : nextPow2 3 = 4 := by
  have h1 : Nat.clog 2 3 ≤ 2 := (Nat.le_pow_iff_clog_le (by norm_num)).mp (by norm_num)
  have h2 : ¬ Nat.clog 2 3 ≤ 1 := by
    intro h
    have := (Nat.le_pow_iff_clog_le (b := 2) (by norm_num)).mpr h
    norm_num at this
  have h3 : Nat.clog 2 3 = 2 := by omega
  rw [nextPow2, h3]
  norm_num

/-- C2 (counterexample): the filters.js `fft` — the one used by
`preprocessBoore` — does not zero-pad at all; on the length-3 input [1, 2, 3]
its recursion reads past the end of the odd half and the call crashes instead
of returning a length-4 transform. -/
theorem c2_counterexample : Filters.fft [(1 : ℝ), 2, 3] = none := by
  rw [Filters.fft, if_neg (by norm_num)]
  have hmap : ([(1 : ℝ), 2, 3].map Complex.ofReal) = [(1 : ℂ), 2, 3] := by
    simp
  rw [hmap]
  obtain ⟨e, he, helen⟩ := fftRecursive_pow2_length 1 [(1 : ℂ), 3] (by simp)
  rw [fftRecursive]
  have heq : evens [(1 : ℂ), 2, 3] = [(1 : ℂ), 3] := by simp [evens]
  have hoq : odds [(1 : ℂ), 2, 3] = [(2 : ℂ)] := by simp [odds]
  rw [dif_pos (by simp), heq, hoq, he, fftRecursive_short [(2 : ℂ)] (by simp)]
  simp [helen]

/-- C2 (amended): the utils.js `fft` — which is also, word for word, the
`SignalProcessor.fft` of processWithMatlab.js and the GUI `fft` — zero-pads
every input of length above 1 up to `nextPow2`, the smallest power of two at
least the input length, and never truncates; the separate filters.js `fft`
used by `preprocessBoore` does NOT pad (see the counterexample). -/
theorem c2_fft_pads (x : List ℝ) (h : 1 < x.length) :
    ∃ F, fft x = some F ∧ F.length = nextPow2 x.length ∧
      x.length ≤ F.length ∧ ∀ k, x.length ≤ 2 ^ k → F.length ≤ 2 ^ k := by
  obtain ⟨F, h1, h2⟩ := fft_pow2_form x (by omega)
  refine ⟨F, h1, h2, ?_, ?_⟩
  · rw [h2]
    exact le_nextPow2 _
  · intro k hk
    rw [h2]
    exact nextPow2_min _ _ hk

/-- Witness for C2 at the input [1, 2, 3] (length 3, padded to 4). -/
theorem c2_witness :
    (1 < [(1 : ℝ), 2, 3].length) ∧
    (∃ F, fft [(1 : ℝ), 2, 3] = some F ∧ F.length = nextPow2 [(1 : ℝ), 2, 3].length ∧
      [(1 : ℝ), 2, 3].length ≤ F.length ∧
      ∀ k, [(1 : ℝ), 2, 3].length ≤ 2 ^ k → F.length ≤ 2 ^ k) :=
  ⟨by norm_num, c2_fft_pads [(1 : ℝ), 2, 3] (by norm_num)⟩

theorem ifft_some_len (X : List ℂ) (h : X.length ≤ 1 ∨ ∃ m, X.length = 2 ^ m) :
    ∃ r, ifft X = some r ∧ r.length = X.length := by
  rw [ifft]
  rcases h with h1 | ⟨m, hm⟩
  · have hfc : fftC (X.map (fun c => (⟨c.re, -c.im⟩ : ℂ)))
        = some (X.map (fun c => (⟨c.re, -c.im⟩ : ℂ))) := by
      rw [fftC, if_pos (by rw [List.length_map]; exact h1)]
    rw [hfc]
    exact ⟨_, rfl, by simp⟩
  · have hmlen : (X.map (fun c => (⟨c.re, -c.im⟩ : ℂ))).length = 2 ^ m := by
      rw [List.length_map, hm]
    obtain ⟨r, hr, hrlen⟩ := fftRecursive_pow2_length m _ hmlen
    rw [fftC_pow2 _ m hmlen, hr]
    exact ⟨_, rfl, by rw [List.length_map, hrlen, hm]⟩

theorem sp_ifft_some_len (X : List ℂ) (h : X.length ≤ 1 ∨ ∃ m, X.length = 2 ^ m) :
    ∃ r, SP.ifft X = some r ∧ r.length = X.length := by
  rw [SP.ifft]
  rcases h with h1 | ⟨m, hm⟩
  · rw [fftRecursive_short _ (by rw [List.length_map]; exact h1)]
    exact ⟨_, rfl, by simp⟩
  · have hmlen : (X.map (fun c => (⟨c.re, -c.im⟩ : ℂ))).length = 2 ^ m := by
      rw [List.length_map, hm]
    obtain ⟨r, hr, hrlen⟩ := fftRecursive_pow2_length m _ hmlen
    rw [hr]
    exact ⟨_, rfl, by rw [List.length_map, hrlen, hm]⟩

theorem fft_short (x : List ℝ) (h : x.length ≤ 1) :
    fft x = some (x.map Complex.ofReal) := by
  rw [fft, fftC, if_pos (by rw [List.length_map]; exact h)]

/-- The utils.js high-pass filter succeeds on every input of length above 1
and returns the PADDED transform length, not the input length. -/
theorem hp_utils_length (data : List ℝ) (fs fc : ℝ) (h : 1 < data.length) :
    ∃ r, highPassFilter data fs fc = some r ∧ r.length = nextPow2 data.length := by
  rw [highPassFilter]
  obtain ⟨F, hF, hFlen⟩ := fft_pow2_form (detrend data) (by rw [detrend_length]; omega)
  rw [hF]
  simp only [Option.bind_eq_bind, Option.some_bind]
  have hFlen2 : F.length = nextPow2 data.length := by rw [hFlen, detrend_length]
  have hfiltlen : (F.enum.map (fun p => (⟨p.2.re * hpMask F.length fs fc p.1,
      p.2.im * hpMask F.length fs fc p.1⟩ : ℂ))).length = nextPow2 data.length := by
    rw [List.length_map, List.enum_length, hFlen2]
  obtain ⟨r, hr, hrlen⟩ := ifft_some_len
    (F.enum.map (fun p => (⟨p.2.re * hpMask F.length fs fc p.1,
      p.2.im * hpMask F.length fs fc p.1⟩ : ℂ)))
    (Or.inr ⟨Nat.clog 2 data.length, by rw [hfiltlen, nextPow2]⟩)
  rw [hr]
  simp only [Option.some_bind]
  exact ⟨_, rfl, by rw [List.length_map, hrlen, hfiltlen]⟩

/-- The SignalProcessor high-pass filter always returns an array of exactly
the input length (the final slice discards the zero-pad tail). -/
theorem hp_sp_length (data : List ℝ) (fs fc : ℝ) :
    ∃ r, SP.highPassFilter data fs fc = some r ∧ r.length = data.length := by
  rw [SP.highPassFilter]
  by_cases h1 : data.length ≤ 1
  · rw [fft_short _ (by rw [detrend_length]; exact h1)]
    simp only [Option.bind_eq_bind, Option.some_bind]
    have hFlen : ((detrend data).map Complex.ofReal).length = data.length := by
      rw [List.length_map, detrend_length]
    obtain ⟨r, hr, hrlen⟩ := sp_ifft_some_len
      (((detrend data).map Complex.ofReal).enum.map
        (fun p => (⟨p.2.re * hpMask ((detrend data).map Complex.ofReal).length fs fc p.1,
          p.2.im * hpMask ((detrend data).map Complex.ofReal).length fs fc p.1⟩ : ℂ)))
      (Or.inl (by
        simp only [List.length_map, List.enum_length]
        rw [detrend_length]
        exact h1))
    rw [hr]
    simp only [Option.some_bind]
    refine ⟨_, rfl, ?_⟩
    rw [List.length_take, List.length_map, hrlen]
    simp only [List.length_map, List.enum_length]
    rw [detrend_length]
    omega
  · obtain ⟨F, hF, hFlen⟩ := fft_pow2_form (detrend data) (by rw [detrend_length]; omega)
    rw [hF]
    simp only [Option.bind_eq_bind, Option.some_bind]
    have hFlen2 : F.length = nextPow2 data.length := by rw [hFlen, detrend_length]
    have hfiltlen : (F.enum.map (fun p => (⟨p.2.re * hpMask F.length fs fc p.1,
        p.2.im * hpMask F.length fs fc p.1⟩ : ℂ))).length = nextPow2 data.length := by
      rw [List.length_map, List.enum_length, hFlen2]
    obtain ⟨r, hr, hrlen⟩ := sp_ifft_some_len
      (F.enum.map (fun p => (⟨p.2.re * hpMask F.length fs fc p.1,
        p.2.im * hpMask F.length fs fc p.1⟩ : ℂ)))
      (Or.inr ⟨Nat.clog 2 data.length, by rw [hfiltlen, nextPow2]⟩)
    rw [hr]
    simp only [Option.some_bind]
    refine ⟨_, rfl, ?_⟩
    rw [List.length_take, List.length_map, hrlen, hfiltlen]
    have := le_nextPow2 data.length
    omega

/-- C3 (amended): the processWithMatlab.js / GUI high-pass entry point always
returns an array of exactly the input length, for every input and every fs,
fc; the utils.js high-pass entry point performs no final slice and returns
the padded transform length instead, which differs from the input length
whenever the input length exceeds 1 and is not a power of two. -/
theorem c3_highpass_lengths :
    (∀ (data : List ℝ) (fs fc : ℝ),
      ∃ r, SP.highPassFilter data fs fc = some r ∧ r.length = data.length) ∧
    (∀ (data : List ℝ) (fs fc : ℝ), 1 < data.length →
      ∃ r, highPassFilter data fs fc = some r ∧ r.length = nextPow2 data.length) :=
  ⟨fun data fs fc => hp_sp_length data fs fc,
    fun data fs fc h => hp_utils_length data fs fc h⟩

/-- Witness for C3 at the length-3 input [1, 2, 3] with fs = 1, fc = 1. -/
theorem c3_witness :
    (∃ r, SP.highPassFilter [(1 : ℝ), 2, 3] 1 1 = some r ∧ r.length = 3) ∧
    (1 < [(1 : ℝ), 2, 3].length) ∧
    (∃ r, highPassFilter [(1 : ℝ), 2, 3] 1 1 = some r ∧
      r.length = nextPow2 [(1 : ℝ), 2, 3].length) :=
  ⟨c3_highpass_lengths.1 [1, 2, 3] 1 1, by norm_num,
    c3_highpass_lengths.2 [1, 2, 3] 1 1 (by norm_num)⟩

/-- C3 (counterexample): on the length-3 input [1, 2, 3] the utils.js
high-pass filter returns 4 samples, not 3 — the zero-pad tail is not
discarded. -/
theorem c3_counterexample :
    ∃ r, highPassFilter [(1 : ℝ), 2, 3] 1 1 = some r ∧ r.length ≠ 3 := by
  obtain ⟨r, hr, hrlen⟩ := hp_utils_length [(1 : ℝ), 2, 3] 1 1 (by norm_num)
  refine ⟨r, hr, ?_⟩
  rw [hrlen]
  show nextPow2 3 ≠ 3
  rw [nextPow2_three]
  norm_num

/-- Witness for C1 at the concrete input [1, -1] (length 2 = 2^1). -/
theorem c1_witness :
    ([(1 : ℝ), -1].length = 2 ^ 1) ∧
    (∃ y z, fft [(1 : ℝ), -1] = some y ∧ ifft y = some z ∧
      z.length = [(1 : ℝ), -1].length ∧
      ∀ i, i < [(1 : ℝ), -1].length →
        (z.getD i 0).re = [(1 : ℝ), -1].getD i 0 ∧ (z.getD i 0).im = 0 ∧
        |(z.getD i 0).re - [(1 : ℝ), -1].getD i 0|
          ≤ 1e-9 * |[(1 : ℝ), -1].getD i 0|) :=
  ⟨rfl, fft_ifft_roundtrip [(1 : ℝ), -1] 1 rfl⟩

theorem newmarkHist_cons (step : NState → ℝ → NState) (a : ℝ) (l : List ℝ) :
    newmarkHist step (a :: l) = List.scanl step ⟨0, 0, 0⟩ (accelDiffs (a :: l)) := rfl

/-- The two step formulas agree on `du` and on the acceleration update but
differ in the velocity update; on the third row reached from the zero state
the difference is an explicit multiple of the first displacement. -/
theorem scanl_two_v_diff (keff a0 a1 a2 a3 a4 a5 m c d1 d2 : ℝ) :
    ((List.scanl (spNewmarkStep keff a0 a1 a2 a3 a4 a5 m c) ⟨0, 0, 0⟩ [d1, d2]).getD
        2 ⟨0, 0, 0⟩).v
      - ((List.scanl (utilsNewmarkStep keff a0 a1 a2 a3 a4 a5 m c) ⟨0, 0, 0⟩ [d1, d2]).getD
        2 ⟨0, 0, 0⟩).v
      = (a1 - a4) * (-m * d1 / keff) + (a4 - a2) * (a1 * (-m * d1 / keff)) := by
  simp [List.scanl, spNewmarkStep, utilsNewmarkStep]
  ring

theorem accelDiffs_010 : accelDiffs [(0 : ℝ), 1, 0] = [1, -1] := by
  simp [accelDiffs]

theorem sp_keff_eval : SP.keffAt 1 0 0.01 = 40000 * π ^ 2 + 4 := by
  rw [SP.keffAt]
  norm_num
  ring

/-- C4 (amended): the inner Newmark-Beta recurrence of the part_003
`calculateResponseSpectra` computes, for every ground-acceleration array,
time step, damping ratio and period, exactly the same displacement, velocity
and acceleration histories as utils.js `newmarkBeta` evaluated at
omega = 2·pi/T with the default beta = 1/4, gamma = 1/2; the processWithMatlab
recurrence (and its verbatim GUI copy) differs in the velocity update and
produces different histories (see the counterexample). -/
theorem c4_newmark_recurrences (accel : List ℝ) (dt zeta T : ℝ) :
    Analysis.newmarkHistAt accel dt zeta T
      = newmarkBeta accel dt (2 * π / T) zeta (1 / 4) (1 / 2) := by
  rw [Analysis.newmarkHistAt, newmarkBeta, Analysis.keffAt]
  norm_num

/-- C4 (counterexample): at the first grid period T = 0.01, with ground
acceleration [0, 1, 0], dt = 1 and zero damping, the velocity history of the
processWithMatlab recurrence differs at index 2 from the one computed by
utils.js `newmarkBeta` (the difference is 5/keff with keff = 40000·pi² + 4). -/
theorem c4_counterexample :
    periodsGrid.getD 0 0 = 0.01 ∧
    ((SP.newmarkHistAt [(0 : ℝ), 1, 0] 1 0 0.01).getD 2 ⟨0, 0, 0⟩).v
      ≠ ((newmarkBeta [(0 : ℝ), 1, 0] 1 (2 * π / 0.01) 0 (1 / 4) (1 / 2)).getD
        2 ⟨0, 0, 0⟩).v := by
  constructor
  · simp [periodsGrid]
  intro h
  have hK : 0 < SP.keffAt 1 0 0.01 := by
    rw [sp_keff_eval]
    positivity
  have hSPform : SP.newmarkHistAt [(0 : ℝ), 1, 0] 1 0 0.01
      = List.scanl (spNewmarkStep (SP.keffAt 1 0 0.01) 4 2 4 1 1 0 1 0) ⟨0, 0, 0⟩ [1, -1] := by
    rw [SP.newmarkHistAt, newmarkHist_cons, accelDiffs_010]
    norm_num
  have hkeq : (1 : ℝ) * (2 * π / 0.01) * (2 * π / 0.01) + 1 / (1 / 4 * 1 * 1) * 1
      + 1 / 2 / (1 / 4 * 1) * (2 * 0 * 1 * (2 * π / 0.01)) = SP.keffAt 1 0 0.01 := by
    rw [SP.keffAt]
    norm_num
    ring
  have hUform : newmarkBeta [(0 : ℝ), 1, 0] 1 (2 * π / 0.01) 0 (1 / 4) (1 / 2)
      = List.scanl (utilsNewmarkStep (SP.keffAt 1 0 0.01) 4 2 4 1 1 0 1 0) ⟨0, 0, 0⟩ [1, -1] := by
    rw [newmarkBeta, newmarkHist_cons, accelDiffs_010, hkeq]
    norm_num
  rw [hSPform, hUform] at h
  have hdiff := scanl_two_v_diff (SP.keffAt 1 0 0.01) 4 2 4 1 1 0 1 0 1 (-1)
  rw [h, sub_self] at hdiff
  have h5 : (0 : ℝ) < 5 / SP.keffAt 1 0 0.01 := by positivity
  have hval : ((2 : ℝ) - 1) * (-1 * 1 / SP.keffAt 1 0 0.01)
      + (1 - 4) * (2 * (-1 * 1 / SP.keffAt 1 0 0.01)) = 5 / SP.keffAt 1 0 0.01 := by
    ring
  rw [hval] at hdiff
  linarith

theorem sp_keff_neg : SP.keffAt 1 (-200) 0.01 < 0 := by
  have heval : SP.keffAt 1 (-200) 0.01 = 40000 * π ^ 2 - 160000 * π + 4 := by
    rw [SP.keffAt]
    norm_num
    ring
  rw [heval]
  have h1 : π < 3.15 := Real.pi_lt_315
  have h2 : 3.141592 < π := Real.pi_gt_3141592
  nlinarith

/-- C6 (counterexample): in the processWithMatlab sweep with damping ratio
-200, time step 1 and ground acceleration [0, 1], the effective stiffness at
the first grid period T = 0.01 is negative and finite, yet the engine does
not emit 0 for that period: the emitted SD is nonzero, because the source
guard only tests `keff === 0 || !isFinite(keff)` and a negative keff slips
through. -/
theorem c6_counterexample :
    SP.keffAt 1 (-200) 0.01 < 0 ∧
    periodsGrid.getD 0 0 = 0.01 ∧
    (SP.calculateResponseSpectrum [(0 : ℝ), 1] [(0 : ℝ), 1] (-200)).SD.getD 0 0 ≠ 0 := by
  refine ⟨sp_keff_neg, by simp [periodsGrid], ?_⟩
  have hKne : SP.keffAt 1 (-200) 0.01 ≠ 0 := ne_of_lt sp_keff_neg
  have hdt : ([(0 : ℝ), 1].getD 1 0 - [(0 : ℝ), 1].getD 0 0) = 1 := by
    norm_num
  simp only [SP.calculateResponseSpectrum, hdt]
  rw [getD_map_lt (fun T => (SP.spectrumAtPeriod [(0 : ℝ), 1] 1 (-200) T).1)
    periodsGrid 0 0 0 (by simp [periodsGrid])]
  have hgrid : periodsGrid.getD 0 0 = 0.01 := by simp [periodsGrid]
  rw [hgrid, SP.spectrumAtPeriod, if_neg hKne]
  have hdiffs : accelDiffs [(0 : ℝ), 1] = [1] := by simp [accelDiffs]
  have hhist : SP.newmarkHistAt [(0 : ℝ), 1] 1 (-200) 0.01
      = List.scanl (spNewmarkStep (SP.keffAt 1 (-200) 0.01) 4 2 4 1 1 0 1
          (2 * (-200) * 1 * (2 * π * (1 / 0.01)))) ⟨0, 0, 0⟩ [1] := by
    rw [SP.newmarkHistAt, newmarkHist_cons, hdiffs]
    norm_num
  rw [hhist]
  have hstep : spNewmarkStep (SP.keffAt 1 (-200) 0.01) 4 2 4 1 1 0 1
      (2 * (-200) * 1 * (2 * π * (1 / 0.01))) ⟨0, 0, 0⟩ 1
      = ⟨-1 / SP.keffAt 1 (-200) 0.01, 2 * (-1 / SP.keffAt 1 (-200) 0.01),
          4 * (-1 / SP.keffAt 1 (-200) 0.01)⟩ := by
    rw [spNewmarkStep]
    have : (-1 : ℝ) * 1 + 1 * (4 * 0 + 4 * 0 + 1 * 0)
        + 2 * (-200) * 1 * (2 * π * (1 / 0.01)) * (2 * 0 + 1 * 0 + 0 * 0) = -1 := by
      ring
    simp only [NState.mk.injEq]
    norm_num
  rw [List.scanl_cons, List.scanl_nil, hstep]
  simp only [List.singleton_append, List.map_cons, List.map_nil]
  have hu : -1 / SP.keffAt 1 (-200) 0.01 ≠ 0 :=
    div_ne_zero (by norm_num) hKne
  have hmaxeval : maxAbs [(0 : ℝ), -1 / SP.keffAt 1 (-200) 0.01]
      = |(-1 / SP.keffAt 1 (-200) 0.01)| := by
    rw [show maxAbs [(0 : ℝ), -1 / SP.keffAt 1 (-200) 0.01]
        = max |(0 : ℝ)| (maxAbs [-1 / SP.keffAt 1 (-200) 0.01]) from rfl]
    rw [show maxAbs [-1 / SP.keffAt 1 (-200) 0.01]
        = |(-1 / SP.keffAt 1 (-200) 0.01)| from rfl]
    rw [abs_zero]
    exact max_eq_right (abs_nonneg _)
  rw [hmaxeval]
  exact abs_ne_zero.mpr hu

/-- C6 (amended): in the part_003 sweep a non-positive (or, in the modelled
real arithmetic, any guarded) effective stiffness at a period yields exactly
(0, 0, 0) for that period while the sweep continues — the output arrays keep
one entry per requested period; in the processWithMatlab/GUI sweep only an
effective stiffness EQUAL to zero (or non-finite) is guarded, and a negative
finite value runs the recurrence instead (see the counterexample). -/
theorem c6_degenerate_keff :
    (∀ (accel : List ℝ) (dt zeta T : ℝ), Analysis.keffAt dt zeta T ≤ 0 →
      Analysis.spectrumAtPeriod accel dt zeta T = (0, 0, 0)) ∧
    (∀ (accel : List ℝ) (dt zeta T : ℝ), SP.keffAt dt zeta T = 0 →
      SP.spectrumAtPeriod accel dt zeta T = (0, 0, 0)) ∧
    (∀ (accel time ps : List ℝ) (damping : Option ℝ),
      (Analysis.calculateResponseSpectra accel time (some ps) damping).SD.length = ps.length ∧
      (Analysis.calculateResponseSpectra accel time (some ps) damping).PSV.length = ps.length ∧
      (Analysis.calculateResponseSpectra accel time (some ps) damping).PSA.length = ps.length) := by
  refine ⟨?_, ?_, ?_⟩
  · intro accel dt zeta T h
    rw [Analysis.spectrumAtPeriod, if_pos h]
  · intro accel dt zeta T h
    rw [SP.spectrumAtPeriod, if_pos h]
  · intro accel time ps damping
    refine ⟨?_, ?_, ?_⟩ <;> simp [Analysis.calculateResponseSpectra.eq_def]

theorem analysis_keff_neg : Analysis.keffAt 1 (-200) 0.01 ≤ 0 := by
  have heval : Analysis.keffAt 1 (-200) 0.01 = 40000 * π ^ 2 - 160000 * π + 4 := by
    rw [Analysis.keffAt]
    norm_num
    ring
  rw [heval]
  have h1 : π < 3.15 := Real.pi_lt_315
  have h2 : 3.141592 < π := Real.pi_gt_3141592
  nlinarith

theorem sp_keff_zero : SP.keffAt (1 / (100 * π)) (-1) 0.01 = 0 := by
  rw [SP.keffAt]
  have hπ : (π : ℝ) ≠ 0 := Real.pi_ne_zero
  norm_num
  field_simp
  ring

/-- Witness for C6: the part_003 guard at a concrete negative keff, the
processWithMatlab guard at a concrete zero keff, and the sweep lengths at a
one-period grid. -/
theorem c6_witness :
    (Analysis.keffAt 1 (-200) 0.01 ≤ 0 ∧
      Analysis.spectrumAtPeriod [(0 : ℝ), 1] 1 (-200) 0.01 = (0, 0, 0)) ∧
    (SP.keffAt (1 / (100 * π)) (-1) 0.01 = 0 ∧
      SP.spectrumAtPeriod [(0 : ℝ), 1] (1 / (100 * π)) (-1) 0.01 = (0, 0, 0)) ∧
    ((Analysis.calculateResponseSpectra [(0 : ℝ), 1] [(0 : ℝ), 1]
        (some [(0.01 : ℝ)]) (some 0.05)).SD.length = 1) :=
  ⟨⟨analysis_keff_neg,
      c6_degenerate_keff.1 [(0 : ℝ), 1] 1 (-200) 0.01 analysis_keff_neg⟩,
    ⟨sp_keff_zero,
      c6_degenerate_keff.2.1 [(0 : ℝ), 1] (1 / (100 * π)) (-1) 0.01 sp_keff_zero⟩,
    (c6_degenerate_keff.2.2 [(0 : ℝ), 1] [(0 : ℝ), 1] [(0.01 : ℝ)] (some 0.05)).1⟩

theorem foldl_max_mem : ∀ (t : List ℝ) (a : ℝ), t.foldl max a ∈ a :: t := by
  intro t
  induction t with
  | nil => intro a; simp
  | cons b t ih =>
      intro a
      rw [List.foldl_cons]
      have h := ih (max a b)
      rcases List.mem_cons.mp h with h1 | h2
      · rcases max_choice a b with hm | hm
        · rw [h1, hm]
          exact List.mem_cons_self _ _
        · rw [h1, hm]
          exact List.mem_cons_of_mem _ (List.mem_cons_self _ _)
      · exact List.mem_cons_of_mem _ (List.mem_cons_of_mem _ h2)

theorem le_foldl_max : ∀ (t : List ℝ) (a : ℝ),
    a ≤ t.foldl max a ∧ ∀ x ∈ t, x ≤ t.foldl max a := by
  intro t
  induction t with
  | nil => intro a; exact ⟨le_refl a, by simp⟩
  | cons b t ih =>
      intro a
      rw [List.foldl_cons]
      refine ⟨le_trans (le_max_left a b) (ih (max a b)).1, ?_⟩
      intro x hx
      rcases List.mem_cons.mp hx with h1 | h2
      · rw [h1]
        exact le_trans (le_max_right a b) (ih (max a b)).1
      · exact (ih (max a b)).2 x h2

theorem listMax_mem (l : List ℝ) (hne : l ≠ []) : listMax l ∈ l := by
  cases l with
  | nil => exact absurd rfl hne
  | cons a t =>
      rw [listMax]
      exact foldl_max_mem t a

theorem le_listMax (l : List ℝ) (x : ℝ) (hx : x ∈ l) : x ≤ listMax l := by
  cases l with
  | nil => simp at hx
  | cons a t =>
      rw [listMax]
      rcases List.mem_cons.mp hx with h1 | h2
      · rw [h1]
        exact (le_foldl_max t a).1
      · exact (le_foldl_max t a).2 x h2

theorem getD_eq_get_real (l : List ℝ) (k : ℕ) (h : k < l.length) :
    l.getD k 0 = l.get ⟨k, h⟩ := by
  rw [List.getD_eq_get?, List.get?_eq_get h]
  rfl

theorem getD_ne_of_lt_indexOf :
    ∀ (l : List ℝ) (a : ℝ) (j : ℕ), j < List.indexOf a l → l.getD j 0 ≠ a := by
  intro l
  induction l with
  | nil => intro a j hj; simp [List.indexOf] at hj
  | cons b t ih =>
      intro a j hj
      by_cases hba : b = a
      · subst hba
        rw [List.indexOf_cons_self] at hj
        omega
      · rw [List.indexOf_cons_ne t hba] at hj
        cases j with
        | zero => simpa using hba
        | succ j =>
            rw [List.getD_cons_succ]
            exact ih a j (by omega)

/-- The argmax realised by `indexOf(Math.max(...))`: it is in range, attains
the maximum, and every strictly earlier entry is strictly below it. -/
theorem argmax_first_spec (l : List ℝ) (hne : l ≠ []) :
    List.indexOf (listMax l) l < l.length ∧
    l.getD (List.indexOf (listMax l) l) 0 = listMax l ∧
    (∀ j, j < l.length → l.getD j 0 ≤ l.getD (List.indexOf (listMax l) l) 0) ∧
    (∀ j, j < List.indexOf (listMax l) l → l.getD j 0 < l.getD (List.indexOf (listMax l) l) 0) := by
  have hmem := listMax_mem l hne
  have hidx : List.indexOf (listMax l) l < l.length := List.indexOf_lt_length.mpr hmem
  have hval : l.getD (List.indexOf (listMax l) l) 0 = listMax l := by
    rw [getD_eq_get_real l _ hidx]
    exact List.indexOf_get hidx
  refine ⟨hidx, hval, ?_, ?_⟩
  · intro j hj
    rw [hval]
    exact le_listMax l _ (by rw [getD_eq_get_real l j hj]; exact List.get_mem l j hj)
  · intro j hj
    have hle : l.getD j 0 ≤ l.getD (List.indexOf (listMax l) l) 0 := by
      rw [hval]
      exact le_listMax l _ (by
        rw [getD_eq_get_real l j (lt_trans hj hidx)]
        exact List.get_mem l j (lt_trans hj hidx))
    have hne2 : l.getD j 0 ≠ l.getD (List.indexOf (listMax l) l) 0 := by
      rw [hval]
      exact getD_ne_of_lt_indexOf l _ j hj
    exact lt_of_le_of_ne hle hne2

theorem getD_range_nat (n k : ℕ) (h : k < n) : (List.range n).getD k 0 = k := by
  rw [List.getD_eq_get?, List.get?_range h]
  rfl

/-- C9 (amended): both site-frequency implementations compute the amplitude
spectrum and restrict the argmax search to the single-sided half covering
indices 0 through ⌊N/2⌋ − 1 — the Nyquist bin N/2 is EXCLUDED — where N is
the transform length in processWithMatlab.js but the raw input length in the
GUI analyzer; the reported frequency is idx·fs/N for the first (lowest)
index attaining the maximal amplitude of that half. -/
theorem c9_site_frequency :
    (∀ (accel : List ℝ) (fs : ℝ), 2 ≤ accel.length →
      ∃ F r, fft accel = some F ∧ SP.findSiteFrequency accel fs = some r ∧
        r.magnitudes = (F.take (F.length / 2)).map
          (fun c => Real.sqrt (c.re * c.re + c.im * c.im)) ∧
        r.magnitudes.length = F.length / 2 ∧
        ∃ idx : ℕ, idx < F.length / 2 ∧
          r.frequency = JsNum.num ((idx : ℝ) * fs / F.length) ∧
          (∀ j, j < r.magnitudes.length → r.magnitudes.getD j 0 ≤ r.magnitudes.getD idx 0) ∧
          (∀ j, j < idx → r.magnitudes.getD j 0 < r.magnitudes.getD idx 0)) ∧
    (∀ (accel : List ℝ) (fs : ℝ), 2 ≤ accel.length →
      ∃ F r, fft accel = some F ∧ GUI.findSiteFrequency accel fs = some r ∧
        r.magnitudes = (F.take (accel.length / 2)).map
          (fun c => Real.sqrt (c.re * c.re + c.im * c.im)) ∧
        r.magnitudes.length = accel.length / 2 ∧
        ∃ idx : ℕ, idx < accel.length / 2 ∧
          r.frequency = JsNum.num ((idx : ℝ) * fs / accel.length) ∧
          (∀ j, j < r.magnitudes.length → r.magnitudes.getD j 0 ≤ r.magnitudes.getD idx 0) ∧
          (∀ j, j < idx → r.magnitudes.getD j 0 < r.magnitudes.getD idx 0)) := by
  constructor
  · intro accel fs h2
    obtain ⟨F, hF, hFlen⟩ := fft_pow2_form accel h2
    have hN2 : 2 ≤ F.length := by
      rw [hFlen]
      exact le_trans h2 (le_nextPow2 _)
    have hmlen : ((F.take (F.length / 2)).map
        (fun c => Real.sqrt (c.re * c.re + c.im * c.im))).length = F.length / 2 := by
      rw [List.length_map, List.length_take]
      omega
    have hmne : ((F.take (F.length / 2)).map
        (fun c => Real.sqrt (c.re * c.re + c.im * c.im))) ≠ [] := by
      intro hcon
      rw [hcon] at hmlen
      simp at hmlen
      omega
    obtain ⟨hidx, hval, hle, hlt⟩ := argmax_first_spec _ hmne
    rw [hmlen] at hidx
    rw [SP.findSiteFrequency, hF]
    simp only [Option.bind_eq_bind, Option.some_bind]
    refine ⟨F, _, rfl, rfl, rfl, hmlen, List.indexOf (listMax _) _, hidx, ?_, ?_, ?_⟩
    · rw [if_neg hmne]
      congr 1
      rw [getD_map_lt (fun (i : ℕ) => (i : ℝ) * fs / F.length) (List.range (F.length / 2))
        _ 0 0 (by rw [List.length_range]; exact hidx)]
      rw [getD_range_nat _ _ hidx]
    · intro j hj
      exact hle j (by rw [hmlen]; rw [hmlen] at hj; exact hj)
    · intro j hj
      exact hlt j hj
  · intro accel fs h2
    obtain ⟨F, hF, hFlen⟩ := fft_pow2_form accel h2
    have hNF : accel.length ≤ F.length := by
      rw [hFlen]
      exact le_nextPow2 _
    have hmlen : ((F.take (accel.length / 2)).map
        (fun c => Real.sqrt (c.re * c.re + c.im * c.im))).length = accel.length / 2 := by
      rw [List.length_map, List.length_take]
      omega
    have hmne : ((F.take (accel.length / 2)).map
        (fun c => Real.sqrt (c.re * c.re + c.im * c.im))) ≠ [] := by
      intro hcon
      rw [hcon] at hmlen
      simp at hmlen
      omega
    obtain ⟨hidx, hval, hle, hlt⟩ := argmax_first_spec _ hmne
    rw [hmlen] at hidx
    rw [GUI.findSiteFrequency, hF]
    simp only [Option.bind_eq_bind, Option.some_bind]
    refine ⟨F, _, rfl, rfl, rfl, hmlen, List.indexOf (listMax _) _, hidx, ?_, ?_, ?_⟩
    · rw [if_neg hmne]
      congr 1
      rw [getD_map_lt (fun (i : ℕ) => (i : ℝ) * fs / accel.length)
        (List.range (accel.length / 2)) _ 0 0 (by rw [List.length_range]; exact hidx)]
      rw [getD_range_nat _ _ hidx]
    · intro j hj
      exact hle j (by rw [hmlen]; rw [hmlen] at hj; exact hj)
    · intro j hj
      exact hlt j hj

theorem twiddle_zero (n : ℕ) : twiddle 0 n = 1 := by
  apply Complex.ext <;> simp [twiddle]

theorem twiddle_one_four : twiddle 1 4 = ⟨0, -1⟩ := by
  have harg : (-2 * π * ((1 : ℕ) : ℝ) / ((4 : ℕ) : ℝ)) = -(π / 2) := by
    push_cast
    ring
  apply Complex.ext
  · show Real.cos (-2 * π * ((1 : ℕ) : ℝ) / ((4 : ℕ) : ℝ)) = 0
    rw [harg, Real.cos_neg, Real.cos_pi_div_two]
  · show Real.sin (-2 * π * ((1 : ℕ) : ℝ) / ((4 : ℕ) : ℝ)) = -1
    rw [harg, Real.sin_neg, Real.sin_pi_div_two]

theorem fftRec_pair (a b : ℂ) : fftRecursive [a, b] = some [a + b, a - b] := by
  rw [fftRecursive]
  rw [dif_pos (by simp)]
  have he : evens [a, b] = [a] := by simp [evens]
  have ho : odds [a, b] = [b] := by simp [odds]
  rw [he, ho, fftRecursive_short [a] (by simp), fftRecursive_short [b] (by simp)]
  simp [twiddle_zero, List.range_succ]

theorem fftRec_c9 : fftRecursive [(1 : ℂ), -1, 1, -1] = some [0, 0, 4, 0] := by
  have h1 : fftRecursive [(1 : ℂ), 1] = some [2, 0] := by
    rw [fftRec_pair]
    norm_num
  have h2 : fftRecursive [(-1 : ℂ), -1] = some [-2, 0] := by
    rw [fftRec_pair]
    norm_num
  rw [fftRecursive]
  rw [dif_pos (by simp)]
  have he : evens [(1 : ℂ), -1, 1, -1] = [1, 1] := by simp [evens]
  have ho : odds [(1 : ℂ), -1, 1, -1] = [-1, -1] := by simp [odds]
  rw [he, ho, h1, h2]
  have hrange : List.range ([(1 : ℂ), -1, 1, -1].length / 2) = [0, 1] := by
    simp
    decide
  simp only [List.length_cons, List.length_nil, hrange, List.map_cons, List.map_nil]
  rw [if_pos (by constructor <;> simp)]
  rw [show (List.range 2) = [0, 1] from by decide]
  simp only [List.map_cons, List.map_nil, List.cons_append, List.nil_append]
  norm_num [twiddle_zero, twiddle_one_four]

theorem fft_c9 : fft [(1 : ℝ), -1, 1, -1] = some [0, 0, 4, 0] := by
  rw [fft]
  have hmap : ([(1 : ℝ), -1, 1, -1].map Complex.ofReal) = [(1 : ℂ), -1, 1, -1] := by
    simp
  rw [hmap, fftC_pow2 _ 2 (by norm_num), fftRec_c9]

theorem mags_c9 : (([(0 : ℂ), 0, 4, 0].take ([(0 : ℂ), 0, 4, 0].length / 2)).map
    (fun c => Real.sqrt (c.re * c.re + c.im * c.im))) = [0, 0] := by
  norm_num

/-- C9 (counterexample): for the input [1, -1, 1, -1] at fs = 4 the whole
spectral energy sits in the Nyquist bin N/2 = 2 (amplitude 4); the search the
claim describes — over indices 0 through N/2 inclusive — would report 2 Hz,
but the code slices the spectrum to indices 0 .. N/2 − 1 and reports 0 Hz. -/
theorem c9_counterexample :
    (∃ r, SP.findSiteFrequency [(1 : ℝ), -1, 1, -1] 4 = some r ∧
      r.frequency = JsNum.num 0) ∧
    siteFrequencySpecSearch [(1 : ℝ), -1, 1, -1] 4 = some 2 := by
  constructor
  · rw [SP.findSiteFrequency, fft_c9]
    simp only [Option.bind_eq_bind, Option.some_bind]
    refine ⟨_, rfl, ?_⟩
    rw [if_neg (by rw [mags_c9]; simp)]
    rw [mags_c9]
    have hmax : listMax [(0 : ℝ), 0] = 0 := by
      rw [listMax]
      simp
    rw [hmax, List.indexOf_cons_self]
    norm_num
  · rw [siteFrequencySpecSearch, fft_c9]
    simp only [Option.bind_eq_bind, Option.some_bind]
    have htake : ([(0 : ℂ), 0, 4, 0].take ([(0 : ℂ), 0, 4, 0].length / 2 + 1)) = [0, 0, 4] := by
      rfl
    rw [htake]
    have hmags : ([(0 : ℂ), 0, 4, 0].length : ℝ) = 4 := by norm_num
    have hsqrt0 : Real.sqrt ((0 : ℂ).re * (0 : ℂ).re + (0 : ℂ).im * (0 : ℂ).im) = 0 := by
      simp
    have hsqrt4 : Real.sqrt ((4 : ℂ).re * (4 : ℂ).re + (4 : ℂ).im * (4 : ℂ).im) = 4 := by
      simp [Complex.re_ofNat, Complex.im_ofNat]
    rw [show ([(0 : ℂ), 0, 4].map (fun c => Real.sqrt (c.re * c.re + c.im * c.im)))
        = [0, 0, 4] by rw [List.map_cons, List.map_cons, List.map_cons, List.map_nil,
          hsqrt0, hsqrt4]]
    have hmax : listMax [(0 : ℝ), 0, 4] = 4 := by
      rw [listMax]
      simp [max_def]
    rw [hmax]
    have hidx : List.indexOf (4 : ℝ) [(0 : ℝ), 0, 4] = 2 := by
      rw [List.indexOf_cons_ne _ (by norm_num), List.indexOf_cons_ne _ (by norm_num),
        List.indexOf_cons_self]
    rw [hidx]
    norm_num

/-- Witness for C9 at the input [1, -1, 1, -1] with fs = 4. -/
theorem c9_witness :
    (2 ≤ [(1 : ℝ), -1, 1, -1].length) ∧
    (∃ F r, fft [(1 : ℝ), -1, 1, -1] = some F ∧
      SP.findSiteFrequency [(1 : ℝ), -1, 1, -1] 4 = some r ∧
      r.magnitudes = (F.take (F.length / 2)).map
        (fun c => Real.sqrt (c.re * c.re + c.im * c.im)) ∧
      r.magnitudes.length = F.length / 2 ∧
      ∃ idx : ℕ, idx < F.length / 2 ∧
        r.frequency = JsNum.num ((idx : ℝ) * 4 / F.length) ∧
        (∀ j, j < r.magnitudes.length → r.magnitudes.getD j 0 ≤ r.magnitudes.getD idx 0) ∧
        (∀ j, j < idx → r.magnitudes.getD j 0 < r.magnitudes.getD idx 0)) ∧
    (∃ F r, fft [(1 : ℝ), -1, 1, -1] = some F ∧
      GUI.findSiteFrequency [(1 : ℝ), -1, 1, -1] 4 = some r ∧
      r.magnitudes = (F.take ([(1 : ℝ), -1, 1, -1].length / 2)).map
        (fun c => Real.sqrt (c.re * c.re + c.im * c.im)) ∧
      r.magnitudes.length = [(1 : ℝ), -1, 1, -1].length / 2 ∧
      ∃ idx : ℕ, idx < [(1 : ℝ), -1, 1, -1].length / 2 ∧
        r.frequency = JsNum.num ((idx : ℝ) * 4 / [(1 : ℝ), -1, 1, -1].length) ∧
        (∀ j, j < r.magnitudes.length → r.magnitudes.getD j 0 ≤ r.magnitudes.getD idx 0) ∧
        (∀ j, j < idx → r.magnitudes.getD j 0 < r.magnitudes.getD idx 0)) :=
  ⟨by norm_num, c9_site_frequency.1 [(1 : ℝ), -1, 1, -1] 4 (by norm_num),
    c9_site_frequency.2 [(1 : ℝ), -1, 1, -1] 4 (by norm_num)⟩

end AFAD
